import Mathlib

/-!
Shallow embedding of the affected-book resolver of
`os_doc_tools/doctest.py` (`find_affected_books` and its helpers).

Paths are plain strings; the directory tree walked by `os.walk` is a
finite rose tree; XML parsing is an oracle `parse : String → Option
(List String)` mapping an absolute file path to `none` (the file is
invalid XML) or `some hrefs` (the file parses and references the given
hrefs via `imagedata`/`xi:include`, still relative to the file's
directory).  The Python `KeyError` on `book_bk[f]` is modelled by
`Except.error f`.
-/

namespace DocTest

/-- Prefix test on the underlying character lists (semantics of
`String.startsWith`, stated so that it evaluates by kernel reduction). -/
def strStartsWith (s p : String) : Bool := p.data.isPrefixOf s.data

/-- Suffix test on the underlying character lists (semantics of
`String.endsWith`). -/
def strEndsWith (s p : String) : Bool := p.data.reverse.isPrefixOf s.data.reverse

/-- The characters after the last slash. -/
def lastComponent : List Char → List Char → List Char
  | [], acc => acc.reverse
  | c :: rest, acc =>
      if c = '/' then lastComponent rest [] else lastComponent rest (c :: acc)

/-- `os.path.basename`: the part of the path after the last slash. -/
def basename (p : String) : String := ⟨lastComponent p.data []⟩

/-- `os.path.abspath(os.path.join(root, p))` for already-normalized paths:
an absolute `p` is kept, a relative one is joined to `root`. -/
def absOf (root p : String) : String :=
  if strStartsWith p "/" then p else root ++ "/" ++ p

/-- `is_book_master` of doctest.py: master files are `bk-*`, `bk_*`,
`st-*` xml files, and the glossary file. -/
def is_book_master (filename : String) : Bool :=
  ((strStartsWith filename "bk-" || strStartsWith filename "bk_" ||
    strStartsWith filename "st-") && strEndsWith filename ".xml") ||
  filename = "openstack-glossary.xml"

/-- `ha_guide_touched` of doctest.py: some changed path lies under the
high-availability-guide directory. -/
def ha_guide_touched (changed : List String) : Bool :=
  changed.any (fun f => strStartsWith f "doc/high-availability-guide/")

/-- `check_modified_affects_all` of doctest.py: one of the two special
files is among the changed files. -/
def check_modified_affects_all (changed : List String) : Bool :=
  changed.any (fun f => f = "tools/test.py" || f = "doc/pom.xml")

/-- The inputs of one `find_affected_books` call: the function arguments,
the `cfg.CONF.only_book` option, the changed-file list (relative paths,
as produced by the git diff providers) and the XML parse oracle. -/
structure Config where
  rootdir : String
  book_exceptions : List String
  file_exceptions : List String
  ignore_dirs : List String
  only_book : Option (List String)
  force : Bool
  changed : List String
  parse : String → Option (List String)

/-- Truthiness of `cfg.CONF.only_book` (a `MultiStrOpt`): `None` and the
empty list are both falsy in Python. -/
def onlyBookActive : Option (List String) → Bool
  | none => false
  | some l => !l.isEmpty

/-- `build_all_books` of doctest.py. -/
def buildAll (C : Config) : Bool :=
  C.force || check_modified_affects_all C.changed || onlyBookActive C.only_book

/-- The absolute forms of the changed files (`map(os.path.abspath, ...)`,
run with the root directory as working directory). -/
def changedAbs (C : Config) : List String := C.changed.map (absOf C.rootdir)

mutual
/-- The directory tree below the root directory, as seen by `os.walk`. -/
inductive FSTree where
  | node (name : String) (files : List String) (subs : FSForest)

/-- The subdirectories of a directory, in listing order. -/
inductive FSForest where
  | nil
  | cons (t : FSTree) (rest : FSForest)
end

def FSTree.name : FSTree → String
  | .node n _ _ => n

mutual
/-- The pruned pre-order of `os.walk` with the in-place `dirs` edits of
doctest.py applied: the list of `(root, files)` pairs the loop body is
offered, in order. -/
def walkEntries (ign : List String) (path : String) : FSTree → List (String × List String)
  | .node _ files subs => (path, files) :: walkForest ign path true subs

/-- Walk a subdirectory list.  The first directory named `target` is
dropped (`del dirs[dirs.index('target')]`; `dropT` records that this
one-off deletion is still pending), hidden directories and directories
of the ignore list are filtered out (the `dirs[:] = ...` filters), and
every remaining subdirectory is recursed into. -/
def walkForest (ign : List String) (path : String) : Bool → FSForest → List (String × List String)
  | _, .nil => []
  | dropT, .cons t rest =>
      if dropT && t.name = "target" then walkForest ign path false rest
      else if strStartsWith t.name "." || t.name ∈ ign then walkForest ign path dropT rest
      else walkEntries ign (absOf path t.name) t ++ walkForest ign path dropT rest
end

/-- The mutable state accumulated by the tree-walk phase of
`find_affected_books`.  `stopped` records that the `break` on a
book-exceptions directory has fired; `visited` records every `root` the
loop body ran for; `log` collects the printed warnings. -/
structure ScanState where
  books : List String
  book_root : String
  book_bk : List (String × String)
  included_by : List (String × List String)
  affected_books : List String
  visited : List String
  log : List String
  stopped : Bool
  deriving Repr, DecidableEq

def initScan (C : Config) : ScanState :=
  { books := [], book_root := C.rootdir, book_bk := [], included_by := [],
    affected_books := [], visited := [], log := [], stopped := false }

/-- Add to a set kept as a duplicate-free list (Python `set.add`). -/
def insertIfAbsent (x : String) (l : List String) : List String :=
  if x ∈ l then l else l ++ [x]

/-- `included_by[href_abs].add(f_abs)`, creating the entry if needed. -/
def addEdge (incl : List (String × List String)) (target includer : String) :
    List (String × List String) :=
  match incl with
  | [] => [(target, [includer])]
  | (t, gs) :: rest =>
      if t = target then
        (t, if includer ∈ gs then gs else gs ++ [includer]) :: rest
      else (t, gs) :: addEdge rest target includer

/-- Record every href of a parsed file as an edge `target ↦ includer`. -/
def addEdges (path f_abs : String) (hrefs : List String)
    (incl : List (String × List String)) : List (String × List String) :=
  match hrefs with
  | [] => incl
  | h :: rest => addEdges path f_abs rest (addEdge incl (absOf path h) f_abs)

def warnMsg (p : String) : String :=
  "  Warning: file " ++ p ++ " is invalid XML"

/-- The eligibility test of the per-file loop: xml files other than the
manifest, the ha-guide docinfo and the file exceptions get parsed. -/
def eligibleXml (C : Config) (f : String) : Bool :=
  strEndsWith f ".xml" && f ≠ "pom.xml" && f ≠ "ha-guide-docinfo.xml" &&
    !C.file_exceptions.contains f

/-- The per-file part of the walk body: record master-file ownership,
then (for eligible xml files) parse and record inclusion edges, or log a
warning when parsing fails. -/
def scanFile (C : Config) (path : String) (st : ScanState) (f : String) : ScanState :=
  let f_abs := absOf path f
  let st :=
    if is_book_master (basename f) then
      { st with book_bk := (f_abs, st.book_root) :: st.book_bk }
    else st
  if eligibleXml C f then
    match C.parse f_abs with
    | none => { st with log := st.log ++ [warnMsg f_abs] }
    | some hrefs => { st with included_by := addEdges path f_abs hrefs st.included_by }
  else st

def scanFiles (C : Config) (path : String) : List String → ScanState → ScanState
  | [], st => st
  | f :: rest, st => scanFiles C path rest (scanFile C path st f)

/-- The body of the `os.walk` loop of `find_affected_books`, for one
`(root, files)` pair. -/
def processEntry (C : Config) (st : ScanState) (e : String × List String) : ScanState :=
  let root := e.1
  let files := e.2
  let st := { st with visited := st.visited ++ [root] }
  if basename root ∈ C.book_exceptions then { st with stopped := true }
  else if strEndsWith root "doc" || root = C.rootdir then st
  else
    let st :=
      if "pom.xml" ∈ files then
        if !onlyBookActive C.only_book ||
            (C.only_book.getD []).contains (basename root) then
          { st with books := st.books ++ [root], book_root := root }
        else st
      else st
    if buildAll C then st
    else
      let st :=
        if strEndsWith root "doc/high-availability-guide" &&
            ha_guide_touched C.changed then
          { st with affected_books := insertIfAbsent st.book_root st.affected_books }
        else st
      scanFiles C root files st

/-- Run the loop body over the walk entries; `stopped` (the Python
`break`) abandons every remaining entry. -/
def scanEntries (C : Config) : List (String × List String) → ScanState → ScanState
  | [], st => st
  | e :: rest, st =>
      if st.stopped then st
      else scanEntries C rest (processEntry C st e)

/-- Phase 1 of `find_affected_books`: the whole tree walk. -/
def scanTree (C : Config) (t : FSTree) : ScanState :=
  scanEntries C (walkEntries C.ignore_dirs C.rootdir t) (initScan C)

/-- The state of the closure loop: the frontier (`new_files`), the
affected files, the affected books and the dequeue trace. -/
structure CState where
  new : List String
  aff : List String
  books : List String
  trace : List String
  deriving Repr, DecidableEq

/-- `for g in included_by[f]: if g not in affected_files: append/add`. -/
def addIncluders : List String → List String → List String → List String × List String
  | [], nf, af => (nf, af)
  | g :: gs, nf, af =>
      if g ∈ af then addIncluders gs nf af
      else addIncluders gs (nf ++ [g]) (g :: af)

/-- One round of the closure loop: process each frontier file.  A
master-named file resolves to its book via `book_bk` (`Except.error` is
the Python `KeyError`); any other file enqueues its unseen includers. -/
def processFiles (bk : List (String × String)) (incl : List (String × List String)) :
    List String → CState → Except String CState
  | [], st => .ok st
  | f :: rest, st =>
      let st := { st with trace := st.trace ++ [f] }
      if is_book_master (basename f) then
        match bk.lookup f with
        | none => .error f
        | some b =>
            processFiles bk incl rest { st with books := insertIfAbsent b st.books }
      else
        match incl.lookup f with
        | none => processFiles bk incl rest st
        | some gs =>
            let p := addIncluders gs st.new st.aff
            processFiles bk incl rest { st with new := p.1, aff := p.2 }

/-- The `while len(new_files) > 0` loop, with a fuel bound on the number
of rounds; out of fuel, the current state is returned as is. -/
def closureLoop (bk : List (String × String)) (incl : List (String × List String)) :
    Nat → CState → Except String CState
  | 0, st => .ok st
  | fuel+1, st =>
      if st.new.isEmpty then .ok st
      else
        match processFiles bk incl st.new { st with new := [] } with
        | .error e => .error e
        | .ok st' => closureLoop bk incl fuel st'

/-- All includers recorded anywhere in the graph; only such files can
ever be enqueued by a round. -/
def inclUniverse (incl : List (String × List String)) : List String :=
  (incl.map Prod.snd).flatten

/-- Enough fuel for the loop: the frontier can grow at most once per
element of the includer universe. -/
def fuelFor (incl : List (String × List String)) : Nat :=
  (inclUniverse incl).length + 1

def runClosure (bk : List (String × String)) (incl : List (String × List String))
    (changed0 : List String) (books0 : List String) : Except String CState :=
  closureLoop bk incl (fuelFor incl)
    { new := changed0, aff := changed0, books := books0, trace := [] }

/-- `find_affected_books` of doctest.py: scan the tree; in
build-everything mode return the collected books; otherwise run the
closure and return the affected books, falling back to all books when
the affected set is empty. -/
def find_affected_books (C : Config) (t : FSTree) : Except String (List String) :=
  let st := scanTree C t
  if buildAll C then .ok st.books
  else
    match runClosure st.book_bk st.included_by (changedAbs C) st.affected_books with
    | .error e => .error e
    | .ok cst => .ok (if cst.books.isEmpty then st.books else cst.books)

/-- A non-empty chain of inclusion edges: each later element is recorded
as an includer of its predecessor. -/
def isIncChain (incl : List (String × List String)) : List String → Bool
  | [] => false
  | [_] => true
  | x :: y :: rest =>
      ((incl.lookup x).getD []).contains y && isIncChain incl (y :: rest)

/-- A closure-loop file is settled in a state: a master-named file has
its book recorded in the affected books, any other file has all its
includers in the affected files. -/
def DoneIn (bk : List (String × String)) (incl : List (String × List String))
    (f : String) (st : CState) : Prop :=
  (is_book_master (basename f) = true → ∃ b, bk.lookup f = some b ∧ b ∈ st.books) ∧
  (is_book_master (basename f) = false → ∀ g ∈ (incl.lookup f).getD [], g ∈ st.aff)

/-- Loop invariant for closure soundness: every affected file is still
on the frontier or already settled. -/
def DoneInv (bk : List (String × String)) (incl : List (String × List String))
    (st : CState) : Prop :=
  ∀ x ∈ st.aff, x ∈ st.new ∨ DoneIn bk incl x st

/-- Loop invariant for the dequeue trace: the frontier and the trace are
duplicate-free subsets of the affected files, and nothing on the
frontier has been dequeued before. -/
def RoundInv (st : CState) : Prop :=
  st.new.Nodup ∧ st.trace.Nodup ∧ (∀ x ∈ st.new, x ∈ st.aff) ∧
  (∀ x ∈ st.trace, x ∈ st.aff) ∧ (∀ x ∈ st.new, x ∉ st.trace)

/-- `RoundInv` generalized to the middle of a round, `todo` being the
part of the old frontier not yet processed. -/
def StepInv (todo : List String) (st : CState) : Prop :=
  RoundInv st ∧ todo.Nodup ∧ (∀ x ∈ todo, x ∈ st.aff) ∧
  (∀ x ∈ todo, x ∉ st.trace) ∧ (∀ x ∈ st.new, x ∉ todo)

/-- A file list is key-safe: each master-named file has a book-ownership
entry, so dequeuing it cannot raise the missing-key error. -/
def KeySafe (bk : List (String × String)) (l : List String) : Prop :=
  ∀ x ∈ l, is_book_master (basename x) = true → (bk.lookup x).isSome = true

/-- Every includer recorded in the graph is key-safe. -/
def InclSafe (bk : List (String × String))
    (incl : List (String × List String)) : Prop :=
  ∀ pr ∈ incl, ∀ g ∈ pr.2,
    is_book_master (basename g) = true → (bk.lookup g).isSome = true

/-- Termination measure of the closure loop: the includer-universe
elements not yet affected. -/
def measureC (incl : List (String × List String)) (st : CState) : Nat :=
  ((inclUniverse incl).filter (fun x => decide (x ∉ st.aff))).length

/-- The prefix of a list up to and including its first element
satisfying `p`. -/
def takeUpTo (p : String → Bool) : List String → List String
  | [] => []
  | x :: rest => if p x then [x] else x :: takeUpTo p rest

/-- Replace the parse oracle's answer at one path. -/
def updOracle (parse : String → Option (List String)) (f0 : String)
    (v : Option (List String)) : String → Option (List String) :=
  fun x => if x = f0 then v else parse x

/-- The walk entries use well-formed file names: taking the base name of
a file's absolute path gives back the base name the scanner tested.
True of any real directory listing (file names contain no slash). -/
def cleanEntries (es : List (String × List String)) : Bool :=
  es.all (fun e => e.2.all (fun fn => basename (absOf e.1 fn) = basename fn))

/-- The scan state with its warning log cleared, to compare two scans up
to diagnostics. -/
def clearLog (st : ScanState) : ScanState := { st with log := [] }

/-- Scan invariant: the current book root, every book-ownership value
and every affected book is a discovered book or the root directory. -/
def BookInv (C : Config) (st : ScanState) : Prop :=
  (st.book_root ∈ st.books ∨ st.book_root = C.rootdir) ∧
  (∀ pr ∈ st.book_bk, pr.2 ∈ st.books ∨ pr.2 = C.rootdir) ∧
  (∀ b ∈ st.affected_books, b ∈ st.books ∨ b = C.rootdir)

/-- Scan invariant: every master-named includer recorded in the graph
already has a book-ownership entry. -/
def ScanSafe (st : ScanState) : Prop :=
  InclSafe st.book_bk st.included_by

/-- Scan invariant: every includer comes from a directory that reached
the per-file loop, hence one that is neither the root directory nor a
directory whose path ends in `doc`. -/
def IncluderInv (C : Config) (st : ScanState) : Prop :=
  ∀ pr ∈ st.included_by, ∀ g ∈ pr.2, ∃ p fn, g = absOf p fn ∧
    ¬strEndsWith p "doc" = true ∧ p ≠ C.rootdir

/-- Build a forest from a list, for concrete example trees. -/
def mkForest : List FSTree → FSForest := fun l => l.foldr FSForest.cons FSForest.nil

/-- Build a tree node from a list of subtrees. -/
def mkTree (name : String) (files : List String) (subs : List FSTree) : FSTree :=
  FSTree.node name files (mkForest subs)

/-- Example oracle: two books whose masters each include one chapter. -/
def demoParse : String → Option (List String) := fun p =>
  if p = "/r/A/bk-a.xml" then some ["ch1.xml"]
  else if p = "/r/B/bk-b.xml" then some ["ch2.xml"]
  else some []

/-- Example configuration: chapter 1 of book A was modified. -/
def demoCfg : Config :=
  { rootdir := "/r", book_exceptions := [], file_exceptions := [], ignore_dirs := [],
    only_book := none, force := false, changed := ["A/ch1.xml"], parse := demoParse }

/-- Example tree with the two books A and B. -/
def demoTree : FSTree :=
  mkTree "r" [] [mkTree "A" ["pom.xml", "bk-a.xml", "ch1.xml"] [],
    mkTree "B" ["pom.xml", "bk-b.xml", "ch2.xml"] []]

/-- Counterexample inputs for C1: book B's master `bk-mid.xml` includes
`ch1.xml`, and book A's master `bk-a.xml` includes `bk-mid.xml`, so an
inclusion chain runs from `ch1.xml` to `bk-a.xml`. -/
def c1Parse : String → Option (List String) := fun p =>
  if p = "/r/A/bk-a.xml" then some ["/r/B/bk-mid.xml"]
  else if p = "/r/B/bk-mid.xml" then some ["ch1.xml"]
  else some []

def c1Cfg : Config :=
  { rootdir := "/r", book_exceptions := [], file_exceptions := [], ignore_dirs := [],
    only_book := none, force := false, changed := ["B/ch1.xml"], parse := c1Parse }

def c1Tree : FSTree :=
  mkTree "r" [] [mkTree "A" ["pom.xml", "bk-a.xml"] [],
    mkTree "B" ["pom.xml", "bk-mid.xml", "ch1.xml"] []]

/-- Configuration for the C3 witness: the changed file is an orphan
with no inclusion edges. -/
def c3Cfg : Config :=
  { rootdir := "/r", book_exceptions := [], file_exceptions := [], ignore_dirs := [],
    only_book := none, force := false, changed := ["A/orphan.xml"],
    parse := fun _ => some [] }

def c3Tree : FSTree :=
  mkTree "r" [] [mkTree "A" ["pom.xml", "bk-a.xml", "orphan.xml"] []]

/-- Counterexample inputs for C4: the changed file is a master-named
xml file directly inside the `doc` directory, which the scanner never
processes. -/
def c4Cfg : Config :=
  { rootdir := "/r", book_exceptions := [], file_exceptions := [], ignore_dirs := [],
    only_book := none, force := false, changed := ["doc/bk-a.xml"],
    parse := fun _ => some [] }

def c4Tree : FSTree := mkTree "r" [] [mkTree "doc" ["bk-a.xml"] []]

/-- Counterexample inputs for C5: the excluded book `ebook` is walked
before its sibling book `bookB`. -/
def c5Cfg : Config :=
  { rootdir := "/r", book_exceptions := ["ebook"], file_exceptions := [],
    ignore_dirs := [], only_book := none, force := false, changed := [],
    parse := fun _ => some [] }

def c5Tree : FSTree :=
  mkTree "r" [] [mkTree "ebook" ["pom.xml"] [], mkTree "bookB" ["pom.xml"] []]

/-- Counterexample inputs for C6: the plain-text book's directory holds
an xml file `foo.xml` that references `img.png`, and a file below the
book changed. -/
def c6Cfg : Config :=
  { rootdir := "/r", book_exceptions := [], file_exceptions := [], ignore_dirs := [],
    only_book := none, force := false,
    changed := ["doc/high-availability-guide/foo.xml"],
    parse := fun p =>
      if p = "/r/doc/high-availability-guide/foo.xml" then some ["img.png"]
      else some [] }

def c6Tree : FSTree :=
  mkTree "r" []
    [mkTree "doc" [] [mkTree "high-availability-guide" ["pom.xml", "foo.xml"] []]]

/-- Counterexample inputs for C7: a master-named file sits in a
directory with no `pom.xml` anywhere, so `book_root` still holds the
root directory when its ownership is recorded. -/
def c7Cfg : Config :=
  { rootdir := "/r", book_exceptions := [], file_exceptions := [], ignore_dirs := [],
    only_book := none, force := false, changed := ["x/bk-a.xml"],
    parse := fun _ => some [] }

def c7Tree : FSTree := mkTree "r" [] [mkTree "x" ["bk-a.xml"] []]

/-- A one-book ownership map for the cyclic-graph example. -/
def c8bk : List (String × String) := [("/r/A/bk-a.xml", "/r/A")]

/-- A cyclic inclusion graph: `ch0.xml` is recorded as included by the
master file and by itself. -/
def c8incl : List (String × List String) :=
  [("/r/A/ch0.xml", ["/r/A/bk-a.xml", "/r/A/ch0.xml"])]

/-- Configuration whose parse oracle fails on exactly one file. -/
def c9Cfg : Config :=
  { rootdir := "/r", book_exceptions := [], file_exceptions := [], ignore_dirs := [],
    only_book := none, force := false, changed := [],
    parse := fun p => if p = "/r/A/bad.xml" then none else some [] }

/-- Tree holding the file on which parsing fails. -/
def c9Tree : FSTree := mkTree "r" [] [mkTree "A" ["pom.xml", "bad.xml", "bk-a.xml"] []]

/-- Configuration in which the base name `doc` is one of the directory
names excluded from scanning. -/
def c10Cfg : Config :=
  { rootdir := "/r", book_exceptions := ["doc"], file_exceptions := [],
    ignore_dirs := [], only_book := none, force := false, changed := [],
    parse := fun _ => some [] }

/-- Tree whose `doc` directory has a subdirectory holding a book. -/
def c10Tree : FSTree := mkTree "r" [] [mkTree "doc" [] [mkTree "A" ["pom.xml"] []]]

/-! ### Utility lemmas -/

theorem lookup_mem {α : Type} {l : List (String × α)} {k : String} {v : α}
    (h : l.lookup k = some v) : (k, v) ∈ l := by
  induction l with
  | nil => simp [List.lookup] at h
  | cons p rest ih =>
      obtain ⟨k', v'⟩ := p
      simp only [List.lookup] at h
      cases hbeq : k == k' with
      | true =>
          rw [hbeq] at h
          simp only [Option.some.injEq] at h
          subst h
          have : k = k' := eq_of_beq hbeq
          subst this
          exact List.mem_cons_self _ _
      | false =>
          rw [hbeq] at h
          exact List.mem_cons_of_mem _ (ih h)

theorem mem_insertIfAbsent {x y : String} {l : List String} :
    x ∈ insertIfAbsent y l ↔ x ∈ l ∨ x = y := by
  unfold insertIfAbsent
  split
  · rename_i hy
    constructor
    · exact fun h => Or.inl h
    · rintro (h | rfl)
      · exact h
      · exact hy
  · simp [List.mem_append]

theorem self_mem_insertIfAbsent (y : String) (l : List String) :
    y ∈ insertIfAbsent y l :=
  mem_insertIfAbsent.mpr (Or.inr rfl)

theorem sub_insertIfAbsent (y : String) (l : List String) :
    l ⊆ insertIfAbsent y l :=
  fun _ hx => mem_insertIfAbsent.mpr (Or.inl hx)

theorem nodup_append_singleton {l : List String} {a : String}
    (h : l.Nodup) (ha : a ∉ l) : (l ++ [a]).Nodup := by
  simp [List.nodup_append, h, ha]

theorem filter_length_le {p q : String → Bool} (h : ∀ x, q x = true → p x = true) :
    ∀ U : List String, (U.filter q).length ≤ (U.filter p).length := by
  intro U
  induction U with
  | nil => simp
  | cons u rest ih =>
      simp only [List.filter_cons]
      cases hq : q u
      · rw [if_neg Bool.false_ne_true]
        cases hp : p u
        · rw [if_neg Bool.false_ne_true]
          exact ih
        · rw [if_pos rfl]
          simp only [List.length_cons]
          omega
      · have hp : p u = true := h u hq
        rw [if_pos rfl, if_pos hp]
        simp only [List.length_cons]
        omega

theorem filter_length_lt {p q : String → Bool} (h : ∀ x, q x = true → p x = true)
    {w : String} (hwp : p w = true) (hwq : q w = false) :
    ∀ U : List String, w ∈ U → (U.filter q).length < (U.filter p).length := by
  intro U
  induction U with
  | nil => intro hw; cases hw
  | cons u rest ih =>
      intro hw
      simp only [List.filter_cons]
      cases hq : q u
      · rw [if_neg Bool.false_ne_true]
        cases hp : p u
        · rw [if_neg Bool.false_ne_true]
          have hne : w ≠ u := by
            intro e; rw [e] at hwp; rw [hwp] at hp; cases hp
          have hwrest : w ∈ rest := by
            rcases List.mem_cons.mp hw with e | m
            · exact absurd e hne
            · exact m
          exact ih hwrest
        · rw [if_pos rfl]
          simp only [List.length_cons]
          have := filter_length_le h rest
          omega
      · have hp : p u = true := h u hq
        have hne : w ≠ u := by
          intro e; rw [e] at hwq; rw [hwq] at hq; cases hq
        have hwrest : w ∈ rest := by
          rcases List.mem_cons.mp hw with e | m
          · exact absurd e hne
          · exact m
        rw [if_pos rfl, if_pos hp]
        simp only [List.length_cons]
        exact Nat.succ_lt_succ (ih hwrest)

/-! ### addIncluders lemmas -/

theorem addIncluders_aff_sub : ∀ (gs nf af : List String),
    af ⊆ (addIncluders gs nf af).2
  | [], _, _ => fun _ hx => hx
  | g :: gs, nf, af => by
      simp only [addIncluders]
      split
      · exact addIncluders_aff_sub gs nf af
      · exact fun x hx =>
          addIncluders_aff_sub gs (nf ++ [g]) (g :: af) (List.mem_cons_of_mem _ hx)

theorem addIncluders_gs_sub : ∀ (gs nf af : List String),
    ∀ g ∈ gs, g ∈ (addIncluders gs nf af).2
  | [], _, _ => by intro g hg; cases hg
  | g0 :: gs, nf, af => by
      intro g hg
      simp only [addIncluders]
      split
      · rename_i hin
        rcases List.mem_cons.mp hg with rfl | m
        · exact addIncluders_aff_sub gs nf af hin
        · exact addIncluders_gs_sub gs nf af g m
      · rcases List.mem_cons.mp hg with rfl | m
        · exact addIncluders_aff_sub gs (nf ++ [g]) (g :: af) (List.mem_cons_self _ _)
        · exact addIncluders_gs_sub gs (nf ++ [g0]) (g0 :: af) g m

theorem addIncluders_aff_from : ∀ (gs nf af : List String),
    ∀ x ∈ (addIncluders gs nf af).2, x ∈ af ∨ x ∈ gs
  | [], _, _ => fun _ hx => Or.inl hx
  | g :: gs, nf, af => by
      intro x hx
      simp only [addIncluders] at hx
      split at hx
      · rcases addIncluders_aff_from gs nf af x hx with h | h
        · exact Or.inl h
        · exact Or.inr (List.mem_cons_of_mem _ h)
      · rcases addIncluders_aff_from gs (nf ++ [g]) (g :: af) x hx with h | h
        · rcases List.mem_cons.mp h with rfl | m
          · exact Or.inr (List.mem_cons_self _ _)
          · exact Or.inl m
        · exact Or.inr (List.mem_cons_of_mem _ h)

theorem addIncluders_new_from : ∀ (gs nf af : List String),
    ∀ x ∈ (addIncluders gs nf af).1,
      x ∈ nf ∨ (x ∈ gs ∧ x ∉ af ∧ x ∈ (addIncluders gs nf af).2)
  | [], _, _ => fun _ hx => Or.inl hx
  | g :: gs, nf, af => by
      intro x hx
      simp only [addIncluders] at hx ⊢
      split at hx
      · rename_i hin
        rw [if_pos hin]
        rcases addIncluders_new_from gs nf af x hx with h | ⟨h1, h2, h3⟩
        · exact Or.inl h
        · exact Or.inr ⟨List.mem_cons_of_mem _ h1, h2, h3⟩
      · rename_i hin
        rw [if_neg hin]
        rcases addIncluders_new_from gs (nf ++ [g]) (g :: af) x hx with h | ⟨h1, h2, h3⟩
        · rcases List.mem_append.mp h with m | m
          · exact Or.inl m
          · have : x = g := List.mem_singleton.mp m
            subst this
            refine Or.inr ⟨List.mem_cons_self _ _, hin, ?_⟩
            exact addIncluders_aff_sub gs (nf ++ [x]) (x :: af) (List.mem_cons_self _ _)
        · refine Or.inr ⟨List.mem_cons_of_mem _ h1, ?_, h3⟩
          intro hxa
          exact h2 (List.mem_cons_of_mem _ hxa)

theorem addIncluders_new_sub : ∀ (gs nf af : List String),
    nf ⊆ (addIncluders gs nf af).1
  | [], _, _ => fun _ hx => hx
  | g :: gs, nf, af => by
      simp only [addIncluders]
      split
      · exact addIncluders_new_sub gs nf af
      · exact fun x hx =>
          addIncluders_new_sub gs (nf ++ [g]) (g :: af)
            (List.mem_append.mpr (Or.inl hx))

theorem addIncluders_aff_new : ∀ (gs nf af : List String),
    ∀ x ∈ (addIncluders gs nf af).2, x ∈ af ∨ x ∈ (addIncluders gs nf af).1
  | [], _, _ => fun _ hx => Or.inl hx
  | g :: gs, nf, af => by
      intro x hx
      simp only [addIncluders] at hx ⊢
      split at hx
      · rename_i hin
        rw [if_pos hin]
        exact addIncluders_aff_new gs nf af x hx
      · rename_i hin
        rw [if_neg hin]
        rcases addIncluders_aff_new gs (nf ++ [g]) (g :: af) x hx with h | h
        · rcases List.mem_cons.mp h with rfl | m
          · exact Or.inr (addIncluders_new_sub gs (nf ++ [x]) (x :: af)
              (List.mem_append.mpr (Or.inr (List.mem_singleton.mpr rfl))))
          · exact Or.inl m
        · exact Or.inr h

theorem addIncluders_nodup : ∀ (gs nf af : List String),
    nf.Nodup → (∀ x ∈ nf, x ∈ af) →
    (addIncluders gs nf af).1.Nodup ∧
      ∀ x ∈ (addIncluders gs nf af).1, x ∈ (addIncluders gs nf af).2
  | [], nf, af => fun hnd hsub => ⟨hnd, hsub⟩
  | g :: gs, nf, af => by
      intro hnd hsub
      simp only [addIncluders]
      split
      · exact addIncluders_nodup gs nf af hnd hsub
      · rename_i hin
        refine addIncluders_nodup gs (nf ++ [g]) (g :: af) ?_ ?_
        · exact nodup_append_singleton hnd (fun hg => hin (hsub g hg))
        · intro x hx
          rcases List.mem_append.mp hx with m | m
          · exact List.mem_cons_of_mem _ (hsub x m)
          · have : x = g := List.mem_singleton.mp m
            subst this
            exact List.mem_cons_self _ _

/-! ### processFiles lemmas -/

theorem lookup_sub_universe (incl : List (String × List String)) {f : String}
    {gs : List String} (h : incl.lookup f = some gs) :
    ∀ g ∈ gs, g ∈ inclUniverse incl := by
  intro g hg
  have hmem := lookup_mem h
  unfold inclUniverse
  rw [List.mem_flatten]
  exact ⟨gs, List.mem_map.mpr ⟨(f, gs), hmem, rfl⟩, hg⟩

theorem processFiles_mono (bk : List (String × String))
    (incl : List (String × List String)) :
    ∀ (todo : List String) (st st' : CState),
    processFiles bk incl todo st = .ok st' →
    st.aff ⊆ st'.aff ∧ st.books ⊆ st'.books ∧ st.new ⊆ st'.new ∧
      st'.trace = st.trace ++ todo := by
  intro todo
  induction todo with
  | nil =>
      intro st st' h
      simp only [processFiles, Except.ok.injEq] at h
      subst h
      exact ⟨fun _ hx => hx, fun _ hx => hx, fun _ hx => hx, by simp⟩
  | cons f rest ih =>
      intro st st' h
      simp only [processFiles] at h
      by_cases hm : is_book_master (basename f) = true
      · rw [if_pos hm] at h
        cases hlk : bk.lookup f with
        | none => rw [hlk] at h; simp at h
        | some b =>
            rw [hlk] at h
            obtain ⟨h1, h2, h3, h4⟩ := ih _ _ h
            refine ⟨h1, ?_, h3, ?_⟩
            · exact fun x hx => h2 (sub_insertIfAbsent b _ hx)
            · rw [h4]; simp
      · rw [if_neg hm] at h
        cases hlk : incl.lookup f with
        | none =>
            rw [hlk] at h
            obtain ⟨h1, h2, h3, h4⟩ := ih _ _ h
            exact ⟨h1, h2, h3, by rw [h4]; simp⟩
        | some gs =>
            rw [hlk] at h
            obtain ⟨h1, h2, h3, h4⟩ := ih _ _ h
            refine ⟨?_, h2, ?_, by rw [h4]; simp⟩
            · exact fun x hx => h1 (addIncluders_aff_sub gs st.new st.aff hx)
            · exact fun x hx => h3 (addIncluders_new_sub gs st.new st.aff hx)

theorem processFiles_new_from (bk : List (String × String))
    (incl : List (String × List String)) :
    ∀ (todo : List String) (st st' : CState),
    processFiles bk incl todo st = .ok st' →
    ∀ x ∈ st'.new, x ∈ st.new ∨ (x ∈ inclUniverse incl ∧ x ∉ st.aff ∧ x ∈ st'.aff) := by
  intro todo
  induction todo with
  | nil =>
      intro st st' h x hx
      simp only [processFiles, Except.ok.injEq] at h
      subst h
      exact Or.inl hx
  | cons f rest ih =>
      intro st st' h x hx
      simp only [processFiles] at h
      by_cases hm : is_book_master (basename f) = true
      · rw [if_pos hm] at h
        cases hlk : bk.lookup f with
        | none => rw [hlk] at h; simp at h
        | some b =>
            rw [hlk] at h
            exact ih _ _ h x hx
      · rw [if_neg hm] at h
        cases hlk : incl.lookup f with
        | none =>
            rw [hlk] at h
            exact ih _ _ h x hx
        | some gs =>
            rw [hlk] at h
            rcases ih _ _ h x hx with hx1 | ⟨hu, hna, ha⟩
            · rcases addIncluders_new_from gs st.new st.aff x hx1 with h1 | ⟨h1, h2, h3⟩
              · exact Or.inl h1
              · refine Or.inr ⟨lookup_sub_universe incl hlk x h1, h2, ?_⟩
                exact (processFiles_mono bk incl rest _ _ h).1 h3
            · refine Or.inr ⟨hu, ?_, ha⟩
              intro hxa
              exact hna (addIncluders_aff_sub gs st.new st.aff hxa)

theorem processFiles_aff_from (bk : List (String × String))
    (incl : List (String × List String)) :
    ∀ (todo : List String) (st st' : CState),
    processFiles bk incl todo st = .ok st' →
    ∀ x ∈ st'.aff, x ∈ st.aff ∨ x ∈ st'.new := by
  intro todo
  induction todo with
  | nil =>
      intro st st' h x hx
      simp only [processFiles, Except.ok.injEq] at h
      subst h
      exact Or.inl hx
  | cons f rest ih =>
      intro st st' h x hx
      simp only [processFiles] at h
      by_cases hm : is_book_master (basename f) = true
      · rw [if_pos hm] at h
        cases hlk : bk.lookup f with
        | none => rw [hlk] at h; simp at h
        | some b =>
            rw [hlk] at h
            exact ih _ _ h x hx
      · rw [if_neg hm] at h
        cases hlk : incl.lookup f with
        | none =>
            rw [hlk] at h
            exact ih _ _ h x hx
        | some gs =>
            rw [hlk] at h
            rcases ih _ _ h x hx with h1 | h2
            · rcases addIncluders_aff_new gs st.new st.aff x h1 with h3 | h4
              · exact Or.inl h3
              · exact Or.inr ((processFiles_mono bk incl rest _ _ h).2.2.1 h4)
            · exact Or.inr h2

theorem DoneIn_mono {bk : List (String × String)} {incl : List (String × List String)}
    {f : String} {st st' : CState}
    (hb : st.books ⊆ st'.books) (ha : st.aff ⊆ st'.aff)
    (h : DoneIn bk incl f st) : DoneIn bk incl f st' := by
  obtain ⟨h1, h2⟩ := h
  refine ⟨fun hm => ?_, fun hm => ?_⟩
  · obtain ⟨b, hb1, hb2⟩ := h1 hm
    exact ⟨b, hb1, hb hb2⟩
  · intro g hg
    exact ha (h2 hm g hg)

theorem processFiles_done (bk : List (String × String))
    (incl : List (String × List String)) :
    ∀ (todo : List String) (st st' : CState),
    processFiles bk incl todo st = .ok st' →
    ∀ f ∈ todo, DoneIn bk incl f st' := by
  intro todo
  induction todo with
  | nil => intro st st' _ f hf; cases hf
  | cons f0 rest ih =>
      intro st st' h f hf
      simp only [processFiles] at h
      by_cases hm : is_book_master (basename f0) = true
      · rw [if_pos hm] at h
        cases hlk : bk.lookup f0 with
        | none => rw [hlk] at h; simp at h
        | some b =>
            rw [hlk] at h
            rcases List.mem_cons.mp hf with rfl | hf'
            · refine ⟨fun _ => ⟨b, hlk, ?_⟩, fun hmf => ?_⟩
              · exact (processFiles_mono bk incl rest _ _ h).2.1
                  (self_mem_insertIfAbsent b _)
              · simp [hm] at hmf
            · exact ih _ _ h f hf'
      · rw [if_neg hm] at h
        cases hlk : incl.lookup f0 with
        | none =>
            rw [hlk] at h
            rcases List.mem_cons.mp hf with rfl | hf'
            · refine ⟨fun hmf => absurd hmf hm, fun _ => ?_⟩
              intro g hg
              rw [hlk] at hg
              simp at hg
            · exact ih _ _ h f hf'
        | some gs =>
            rw [hlk] at h
            rcases List.mem_cons.mp hf with rfl | hf'
            · refine ⟨fun hmf => absurd hmf hm, fun _ => ?_⟩
              intro g hg
              rw [hlk] at hg
              simp only [Option.getD_some] at hg
              have h3 := addIncluders_gs_sub gs st.new st.aff g hg
              exact (processFiles_mono bk incl rest _ _ h).1 h3
            · exact ih _ _ h f hf'

theorem processFiles_inv (bk : List (String × String))
    (incl : List (String × List String)) :
    ∀ (todo : List String) (st st' : CState),
    StepInv todo st → processFiles bk incl todo st = .ok st' → RoundInv st' := by
  intro todo
  induction todo with
  | nil =>
      intro st st' hinv h
      simp only [processFiles, Except.ok.injEq] at h
      subst h
      exact hinv.1
  | cons f rest ih =>
      intro st st' hinv h
      obtain ⟨⟨hnd_new, hnd_tr, hnew_aff, htr_aff, hnew_tr⟩,
        hnd_todo, htodo_aff, htodo_tr, hnew_todo⟩ := hinv
      simp only [processFiles] at h
      have hf_aff : f ∈ st.aff := htodo_aff f (List.mem_cons_self _ _)
      have hf_tr : f ∉ st.trace := htodo_tr f (List.mem_cons_self _ _)
      have hnd_rest : rest.Nodup := (List.nodup_cons.mp hnd_todo).2
      have hf_rest : f ∉ rest := (List.nodup_cons.mp hnd_todo).1
      have htr1_nd : (st.trace ++ [f]).Nodup := nodup_append_singleton hnd_tr hf_tr
      have htr1_aff : ∀ x ∈ st.trace ++ [f], x ∈ st.aff := by
        intro x hx
        rcases List.mem_append.mp hx with hx | hx
        · exact htr_aff x hx
        · rw [List.mem_singleton.mp hx]; exact hf_aff
      have hrest_tr1 : ∀ x ∈ rest, x ∉ st.trace ++ [f] := by
        intro x hx hx1
        rcases List.mem_append.mp hx1 with hx1 | hx1
        · exact htodo_tr x (List.mem_cons_of_mem _ hx) hx1
        · rw [List.mem_singleton.mp hx1] at hx
          exact hf_rest hx
      have hnew_tr1 : ∀ x ∈ st.new, x ∉ st.trace ++ [f] := by
        intro x hx hx1
        rcases List.mem_append.mp hx1 with hx1 | hx1
        · exact hnew_tr x hx hx1
        · rw [List.mem_singleton.mp hx1] at hx
          exact hnew_todo f hx (List.mem_cons_self _ _)
      have hnew_rest : ∀ x ∈ st.new, x ∉ rest :=
        fun x hx hr => hnew_todo x hx (List.mem_cons_of_mem _ hr)
      by_cases hm : is_book_master (basename f) = true
      · rw [if_pos hm] at h
        cases hlk : bk.lookup f with
        | none => rw [hlk] at h; simp at h
        | some b =>
            rw [hlk] at h
            refine ih _ _ ?_ h
            exact ⟨⟨hnd_new, htr1_nd, hnew_aff, htr1_aff, hnew_tr1⟩,
              hnd_rest, fun x hx => htodo_aff x (List.mem_cons_of_mem _ hx),
              hrest_tr1, hnew_rest⟩
      · rw [if_neg hm] at h
        cases hlk : incl.lookup f with
        | none =>
            rw [hlk] at h
            refine ih _ _ ?_ h
            exact ⟨⟨hnd_new, htr1_nd, hnew_aff, htr1_aff, hnew_tr1⟩,
              hnd_rest, fun x hx => htodo_aff x (List.mem_cons_of_mem _ hx),
              hrest_tr1, hnew_rest⟩
        | some gs =>
            rw [hlk] at h
            obtain ⟨hp_nd, hp_sub⟩ := addIncluders_nodup gs st.new st.aff hnd_new hnew_aff
            have haffs := addIncluders_aff_sub gs st.new st.aff
            have hfrom := addIncluders_new_from gs st.new st.aff
            refine ih _ _ ?_ h
            refine ⟨⟨hp_nd, htr1_nd, hp_sub, ?_, ?_⟩, hnd_rest, ?_, hrest_tr1, ?_⟩
            · exact fun x hx => haffs (htr1_aff x hx)
            · intro x hx hx1
              rcases hfrom x hx with h1 | ⟨_, h2, _⟩
              · exact hnew_tr1 x h1 hx1
              · exact h2 (htr1_aff x hx1)
            · exact fun x hx => haffs (htodo_aff x (List.mem_cons_of_mem _ hx))
            · intro x hx hr
              rcases hfrom x hx with h1 | ⟨_, h2, _⟩
              · exact hnew_rest x h1 hr
              · exact h2 (htodo_aff x (List.mem_cons_of_mem _ hr))

theorem processFiles_safe (bk : List (String × String))
    (incl : List (String × List String)) (hincl : InclSafe bk incl) :
    ∀ (todo : List String) (st : CState),
    KeySafe bk todo → KeySafe bk st.new →
    ∃ st', processFiles bk incl todo st = .ok st' ∧ KeySafe bk st'.new := by
  intro todo
  induction todo with
  | nil => intro st _ h2; exact ⟨st, rfl, h2⟩
  | cons f rest ih =>
      intro st h1 h2
      have h1' : KeySafe bk rest :=
        fun x hx hmx => h1 x (List.mem_cons_of_mem _ hx) hmx
      simp only [processFiles]
      by_cases hm : is_book_master (basename f) = true
      · rw [if_pos hm]
        have hs := h1 f (List.mem_cons_self _ _) hm
        cases hlk : bk.lookup f with
        | none => rw [hlk] at hs; simp at hs
        | some b => exact ih _ h1' h2
      · rw [if_neg hm]
        cases hlk : incl.lookup f with
        | none => exact ih _ h1' h2
        | some gs =>
            refine ih _ h1' ?_
            intro x hx hmx
            rcases addIncluders_new_from gs st.new st.aff x hx with hx1 | ⟨hx1, _, _⟩
            · exact h2 x hx1 hmx
            · exact hincl (f, gs) (lookup_mem hlk) x hx1 hmx

/-! ### closureLoop lemmas -/

theorem closureLoop_empty (bk : List (String × String))
    (incl : List (String × List String)) (fuel : Nat) (st : CState)
    (h : st.new = []) : closureLoop bk incl fuel st = .ok st := by
  cases fuel with
  | zero => rfl
  | succ n => simp [closureLoop, h]

theorem closureLoop_mono (bk : List (String × String))
    (incl : List (String × List String)) : ∀ (fuel : Nat) (st st' : CState),
    closureLoop bk incl fuel st = .ok st' →
    st.aff ⊆ st'.aff ∧ st.books ⊆ st'.books := by
  intro fuel
  induction fuel with
  | zero =>
      intro st st' h
      simp only [closureLoop, Except.ok.injEq] at h
      subst h
      exact ⟨fun _ hx => hx, fun _ hx => hx⟩
  | succ n ih =>
      intro st st' h
      simp only [closureLoop] at h
      by_cases he : st.new.isEmpty = true
      · rw [if_pos he] at h
        simp only [Except.ok.injEq] at h
        subst h
        exact ⟨fun _ hx => hx, fun _ hx => hx⟩
      · rw [if_neg he] at h
        cases hpf : processFiles bk incl st.new { st with new := [] } with
        | error e => rw [hpf] at h; simp at h
        | ok st1 =>
            rw [hpf] at h
            obtain ⟨h1, h2⟩ := ih _ _ h
            obtain ⟨m1, m2, _, _⟩ := processFiles_mono bk incl st.new _ _ hpf
            exact ⟨fun x hx => h1 (m1 hx), fun x hx => h2 (m2 hx)⟩

theorem round_decreases (bk : List (String × String))
    (incl : List (String × List String)) (st st1 : CState)
    (hpf : processFiles bk incl st.new { st with new := [] } = .ok st1)
    (hne : st1.new ≠ []) : measureC incl st1 < measureC incl st := by
  obtain ⟨g, hg⟩ := List.exists_mem_of_ne_nil st1.new hne
  rcases processFiles_new_from bk incl st.new _ _ hpf g hg with h1 | ⟨hu, hna, ha⟩
  · exact absurd h1 (List.not_mem_nil g)
  · have hsub : st.aff ⊆ st1.aff := (processFiles_mono bk incl st.new _ _ hpf).1
    unfold measureC
    refine filter_length_lt ?_ ?_ ?_ (inclUniverse incl) hu
    · intro x hx
      rw [decide_eq_true_eq] at hx ⊢
      exact fun hmem => hx (hsub hmem)
    · exact decide_eq_true hna
    · exact decide_eq_false (not_not_intro ha)

theorem closureLoop_stable (bk : List (String × String))
    (incl : List (String × List String)) : ∀ (n : Nat) (st : CState) (f1 f2 : Nat),
    measureC incl st ≤ n → n < f1 → n < f2 →
    closureLoop bk incl f1 st = closureLoop bk incl f2 st := by
  intro n
  induction n with
  | zero =>
      intro st f1 f2 hm h1 h2
      obtain ⟨a, rfl⟩ : ∃ a, f1 = a + 1 := ⟨f1 - 1, by omega⟩
      obtain ⟨b, rfl⟩ : ∃ b, f2 = b + 1 := ⟨f2 - 1, by omega⟩
      simp only [closureLoop]
      by_cases he : st.new.isEmpty = true
      · rw [if_pos he, if_pos he]
      · rw [if_neg he, if_neg he]
        cases hpf : processFiles bk incl st.new { st with new := [] } with
        | error e => rfl
        | ok st1 =>
            show closureLoop bk incl a st1 = closureLoop bk incl b st1
            by_cases hne : st1.new = []
            · rw [closureLoop_empty bk incl a st1 hne,
                closureLoop_empty bk incl b st1 hne]
            · exfalso
              have := round_decreases bk incl st st1 hpf hne
              omega
  | succ n ih =>
      intro st f1 f2 hm h1 h2
      obtain ⟨a, rfl⟩ : ∃ a, f1 = a + 1 := ⟨f1 - 1, by omega⟩
      obtain ⟨b, rfl⟩ : ∃ b, f2 = b + 1 := ⟨f2 - 1, by omega⟩
      simp only [closureLoop]
      by_cases he : st.new.isEmpty = true
      · rw [if_pos he, if_pos he]
      · rw [if_neg he, if_neg he]
        cases hpf : processFiles bk incl st.new { st with new := [] } with
        | error e => rfl
        | ok st1 =>
            show closureLoop bk incl a st1 = closureLoop bk incl b st1
            by_cases hne : st1.new = []
            · rw [closureLoop_empty bk incl a st1 hne,
                closureLoop_empty bk incl b st1 hne]
            · have hd := round_decreases bk incl st st1 hpf hne
              exact ih st1 a b (by omega) (by omega) (by omega)

theorem closureLoop_completes (bk : List (String × String))
    (incl : List (String × List String)) : ∀ (fuel : Nat) (st st' : CState),
    measureC incl st < fuel → closureLoop bk incl fuel st = .ok st' →
    st'.new = [] := by
  intro fuel
  induction fuel with
  | zero => intro st st' hm _; omega
  | succ n ih =>
      intro st st' hm h
      simp only [closureLoop] at h
      by_cases he : st.new.isEmpty = true
      · rw [if_pos he] at h
        simp only [Except.ok.injEq] at h
        subst h
        exact List.isEmpty_iff.mp he
      · rw [if_neg he] at h
        cases hpf : processFiles bk incl st.new { st with new := [] } with
        | error e => rw [hpf] at h; simp at h
        | ok st1 =>
            rw [hpf] at h
            replace h : closureLoop bk incl n st1 = Except.ok st' := h
            by_cases hne : st1.new = []
            · rw [closureLoop_empty bk incl n st1 hne] at h
              simp only [Except.ok.injEq] at h
              subst h
              exact hne
            · have hd := round_decreases bk incl st st1 hpf hne
              exact ih st1 st' (by omega) h

theorem closureLoop_inv (bk : List (String × String))
    (incl : List (String × List String)) : ∀ (fuel : Nat) (st st' : CState),
    RoundInv st → closureLoop bk incl fuel st = .ok st' → RoundInv st' := by
  intro fuel
  induction fuel with
  | zero =>
      intro st st' hinv h
      simp only [closureLoop, Except.ok.injEq] at h
      subst h
      exact hinv
  | succ n ih =>
      intro st st' hinv h
      obtain ⟨hnd_new, hnd_tr, hnew_aff, htr_aff, hnew_tr⟩ := hinv
      simp only [closureLoop] at h
      by_cases he : st.new.isEmpty = true
      · rw [if_pos he] at h
        simp only [Except.ok.injEq] at h
        subst h
        exact ⟨hnd_new, hnd_tr, hnew_aff, htr_aff, hnew_tr⟩
      · rw [if_neg he] at h
        cases hpf : processFiles bk incl st.new { st with new := [] } with
        | error e => rw [hpf] at h; simp at h
        | ok st1 =>
            rw [hpf] at h
            refine ih st1 st' ?_ h
            refine processFiles_inv bk incl st.new _ st1 ?_ hpf
            exact ⟨⟨List.nodup_nil, hnd_tr,
              fun x hx => absurd hx (List.not_mem_nil x), htr_aff,
              fun x hx => absurd hx (List.not_mem_nil x)⟩,
              hnd_new, hnew_aff, hnew_tr,
              fun x hx => absurd hx (List.not_mem_nil x)⟩

theorem closureLoop_done (bk : List (String × String))
    (incl : List (String × List String)) : ∀ (fuel : Nat) (st st' : CState),
    DoneInv bk incl st → closureLoop bk incl fuel st = .ok st' →
    DoneInv bk incl st' := by
  intro fuel
  induction fuel with
  | zero =>
      intro st st' hinv h
      simp only [closureLoop, Except.ok.injEq] at h
      subst h
      exact hinv
  | succ n ih =>
      intro st st' hinv h
      simp only [closureLoop] at h
      by_cases he : st.new.isEmpty = true
      · rw [if_pos he] at h
        simp only [Except.ok.injEq] at h
        subst h
        exact hinv
      · rw [if_neg he] at h
        cases hpf : processFiles bk incl st.new { st with new := [] } with
        | error e => rw [hpf] at h; simp at h
        | ok st1 =>
            rw [hpf] at h
            refine ih st1 st' ?_ h
            intro x hx
            rcases processFiles_aff_from bk incl st.new _ _ hpf x hx with hxa | hxn
            · rcases hinv x hxa with hxn0 | hdone
              · exact Or.inr (processFiles_done bk incl st.new _ _ hpf x hxn0)
              · obtain ⟨m1, m2, _, _⟩ := processFiles_mono bk incl st.new _ _ hpf
                exact Or.inr (DoneIn_mono m2 m1 hdone)
            · exact Or.inl hxn

theorem closureLoop_final (bk : List (String × String))
    (incl : List (String × List String)) (fuel : Nat) (st st' : CState)
    (hinv : DoneInv bk incl st)
    (h : closureLoop bk incl fuel st = .ok st')
    (hempty : st'.new = []) :
    ∀ x ∈ st'.aff, DoneIn bk incl x st' := by
  intro x hx
  rcases closureLoop_done bk incl fuel st st' hinv h x hx with hn | hd
  · rw [hempty] at hn
    exact absurd hn (List.not_mem_nil x)
  · exact hd

theorem closureLoop_safe (bk : List (String × String))
    (incl : List (String × List String)) (hincl : InclSafe bk incl) :
    ∀ (fuel : Nat) (st : CState), KeySafe bk st.new →
    ∃ st', closureLoop bk incl fuel st = .ok st' := by
  intro fuel
  induction fuel with
  | zero => intro st _; exact ⟨st, rfl⟩
  | succ n ih =>
      intro st hsafe
      by_cases he : st.new.isEmpty = true
      · exact ⟨st, by simp only [closureLoop]; rw [if_pos he]⟩
      · obtain ⟨st1, hok, hsafe1⟩ :=
          processFiles_safe bk incl hincl st.new { st with new := [] } hsafe
            (fun x hx => absurd hx (List.not_mem_nil x))
        obtain ⟨st', h'⟩ := ih st1 hsafe1
        refine ⟨st', ?_⟩
        simp only [closureLoop]
        rw [if_neg he, hok]
        exact h'

theorem measure_lt_fuelFor (incl : List (String × List String)) (st : CState) :
    measureC incl st < fuelFor incl := by
  unfold measureC fuelFor
  have := List.length_filter_le (fun x => decide (x ∉ st.aff)) (inclUniverse incl)
  omega

theorem runClosure_new_nil {bk : List (String × String)}
    {incl : List (String × List String)} {changed0 books0 : List String}
    {cst : CState} (h : runClosure bk incl changed0 books0 = .ok cst) :
    cst.new = [] := by
  unfold runClosure at h
  exact closureLoop_completes bk incl (fuelFor incl) _ cst
    (measure_lt_fuelFor incl _) h

/-! ### Tree-scan lemmas -/

theorem scanFile_shape (C : Config) (path : String) (st : ScanState) (f : String) :
    ∃ bk incl lg, scanFile C path st f =
      { st with book_bk := bk, included_by := incl, log := lg } := by
  simp only [scanFile]
  repeat' split
  all_goals exact ⟨_, _, _, rfl⟩

set_option maxHeartbeats 1000000 in
theorem scanFiles_shape (C : Config) (path : String) :
    ∀ (fs : List String) (st : ScanState), ∃ bk incl lg,
    scanFiles C path fs st = { st with book_bk := bk, included_by := incl, log := lg } := by
  intro fs
  induction fs with
  | nil => intro st; exact ⟨st.book_bk, st.included_by, st.log, rfl⟩
  | cons f rest ih =>
      intro st
      obtain ⟨b1, i1, l1, h1⟩ := scanFile_shape C path st f
      obtain ⟨b2, i2, l2, h2⟩ := ih (scanFile C path st f)
      refine ⟨b2, i2, l2, ?_⟩
      simp only [scanFiles]
      rw [h2, h1]

theorem scanFiles_visited (C : Config) (path : String) (fs : List String)
    (st : ScanState) : (scanFiles C path fs st).visited = st.visited := by
  obtain ⟨b, i, l, h⟩ := scanFiles_shape C path fs st
  rw [h]

theorem scanFiles_stopped (C : Config) (path : String) (fs : List String)
    (st : ScanState) : (scanFiles C path fs st).stopped = st.stopped := by
  obtain ⟨b, i, l, h⟩ := scanFiles_shape C path fs st
  rw [h]

theorem scanFiles_books (C : Config) (path : String) (fs : List String)
    (st : ScanState) : (scanFiles C path fs st).books = st.books := by
  obtain ⟨b, i, l, h⟩ := scanFiles_shape C path fs st
  rw [h]

theorem scanFiles_book_root (C : Config) (path : String) (fs : List String)
    (st : ScanState) : (scanFiles C path fs st).book_root = st.book_root := by
  obtain ⟨b, i, l, h⟩ := scanFiles_shape C path fs st
  rw [h]

theorem scanFiles_affected (C : Config) (path : String) (fs : List String)
    (st : ScanState) : (scanFiles C path fs st).affected_books = st.affected_books := by
  obtain ⟨b, i, l, h⟩ := scanFiles_shape C path fs st
  rw [h]

theorem processEntry_visited (C : Config) (st : ScanState) (e : String × List String) :
    (processEntry C st e).visited = st.visited ++ [e.1] := by
  obtain ⟨root, files⟩ := e
  simp only [processEntry]
  repeat' split
  all_goals simp [scanFiles_visited]

theorem processEntry_stopped (C : Config) (st : ScanState) (e : String × List String) :
    (processEntry C st e).stopped =
      if basename e.1 ∈ C.book_exceptions then true else st.stopped := by
  obtain ⟨root, files⟩ := e
  simp only [processEntry]
  by_cases hexc : basename root ∈ C.book_exceptions
  · rw [if_pos hexc, if_pos hexc]
  · rw [if_neg hexc, if_neg hexc]
    repeat' split
    all_goals simp [scanFiles_stopped]

theorem scanEntries_stopped_id (C : Config) :
    ∀ (es : List (String × List String)) (st : ScanState),
    st.stopped = true → scanEntries C es st = st := by
  intro es
  induction es with
  | nil => intro st _; rfl
  | cons e rest _ =>
      intro st h
      simp only [scanEntries]
      rw [if_pos h]

theorem scanEntries_visited (C : Config) :
    ∀ (es : List (String × List String)) (st : ScanState),
    st.stopped = false →
    (scanEntries C es st).visited =
      st.visited ++ takeUpTo (fun r => decide (basename r ∈ C.book_exceptions))
        (es.map Prod.fst) := by
  intro es
  induction es with
  | nil => intro st _; simp [scanEntries, takeUpTo]
  | cons e rest ih =>
      intro st hst
      simp only [scanEntries, List.map_cons, takeUpTo]
      rw [if_neg (by rw [hst]; exact Bool.false_ne_true)]
      by_cases hexc : basename e.1 ∈ C.book_exceptions
      · have hstop : (processEntry C st e).stopped = true := by
          rw [processEntry_stopped, if_pos hexc]
        rw [scanEntries_stopped_id C rest _ hstop, processEntry_visited,
          if_pos (decide_eq_true hexc)]
      · have hstop : (processEntry C st e).stopped = false := by
          rw [processEntry_stopped, if_neg hexc]; exact hst
        rw [ih _ hstop, processEntry_visited,
          if_neg (by rw [decide_eq_false hexc]; exact Bool.false_ne_true)]
        simp

theorem processEntry_doc_skip (C : Config) (st : ScanState) (root : String)
    (files : List String) (hexc : basename root ∉ C.book_exceptions)
    (hdoc : strEndsWith root "doc" = true ∨ root = C.rootdir) :
    processEntry C st (root, files) = { st with visited := st.visited ++ [root] } := by
  have hc : (strEndsWith root "doc" || decide (root = C.rootdir)) = true := by
    rcases hdoc with h | h
    · rw [h]; rfl
    · simp [h]
  simp only [processEntry]
  rw [if_neg hexc, if_pos hc]

/-- C6 (amended): for a visited directory whose path ends with
`doc/high-availability-guide` (no build-everything trigger active, not
aborted, not a `doc`-suffixed or root directory), the special case adds
the *current* book root — the ha directory itself when it holds a
`pom.xml`, otherwise the previously seen book root — to the affected
books exactly when some changed path lies under
`doc/high-availability-guide/`; and the per-file inclusion scanning
still runs over the directory's files (it is not skipped). -/
theorem C6_ha_special_case (C : Config) (st : ScanState) (root : String)
    (files : List String)
    (hb : buildAll C = false)
    (hexc : basename root ∉ C.book_exceptions)
    (hdoc : strEndsWith root "doc" = false) (hroot : root ≠ C.rootdir)
    (hha : strEndsWith root "doc/high-availability-guide" = true) :
    (processEntry C st (root, files)).affected_books =
      (if ha_guide_touched C.changed then
        insertIfAbsent (if "pom.xml" ∈ files then root else st.book_root)
          st.affected_books
      else st.affected_books) ∧
    ∃ st3 : ScanState, processEntry C st (root, files) = scanFiles C root files st3 ∧
      st3.included_by = st.included_by := by
  have hc : (strEndsWith root "doc" || decide (root = C.rootdir)) = false := by
    rw [hdoc]
    simp [hroot]
  have hob : onlyBookActive C.only_book = false := by
    unfold buildAll at hb
    exact (Bool.or_eq_false_iff.mp hb).2
  simp only [processEntry]
  rw [if_neg hexc, if_neg (by rw [hc]; exact Bool.false_ne_true),
    if_neg (by rw [hb]; exact Bool.false_ne_true), hha, hob]
  simp only [Bool.not_false, Bool.true_or, Bool.true_and, eq_self_iff_true, if_true]
  by_cases hpom : "pom.xml" ∈ files
  · rw [if_pos hpom]
    by_cases hht : ha_guide_touched C.changed = true
    · rw [if_pos hht]
      refine ⟨?_, _, rfl, rfl⟩
      rw [scanFiles_affected, if_pos hht, if_pos hpom]
    · rw [if_neg hht]
      refine ⟨?_, _, rfl, rfl⟩
      rw [scanFiles_affected, if_neg hht]
  · rw [if_neg hpom]
    by_cases hht : ha_guide_touched C.changed = true
    · rw [if_pos hht]
      refine ⟨?_, _, rfl, rfl⟩
      rw [scanFiles_affected, if_pos hht, if_neg hpom]
    · rw [if_neg hht]
      refine ⟨?_, _, rfl, rfl⟩
      rw [scanFiles_affected, if_neg hht]

theorem scanFile_books (C : Config) (path : String) (st : ScanState) (f : String) :
    (scanFile C path st f).books = st.books := by
  obtain ⟨b, i, l, h⟩ := scanFile_shape C path st f
  rw [h]

theorem scanFile_book_root (C : Config) (path : String) (st : ScanState) (f : String) :
    (scanFile C path st f).book_root = st.book_root := by
  obtain ⟨b, i, l, h⟩ := scanFile_shape C path st f
  rw [h]

theorem scanFile_affected (C : Config) (path : String) (st : ScanState) (f : String) :
    (scanFile C path st f).affected_books = st.affected_books := by
  obtain ⟨b, i, l, h⟩ := scanFile_shape C path st f
  rw [h]

theorem scanFile_bk (C : Config) (path : String) (st : ScanState) (f : String) :
    (scanFile C path st f).book_bk =
      if is_book_master (basename f) then
        (absOf path f, st.book_root) :: st.book_bk
      else st.book_bk := by
  simp only [scanFile]
  by_cases hm : is_book_master (basename f) = true
  · rw [if_pos hm, if_pos hm]
    by_cases he : eligibleXml C f = true
    · rw [if_pos he]
      cases hp : C.parse (absOf path f)
      · rfl
      · rfl
    · rw [if_neg he]
  · rw [if_neg hm, if_neg hm]
    by_cases he : eligibleXml C f = true
    · rw [if_pos he]
      cases hp : C.parse (absOf path f)
      · rfl
      · rfl
    · rw [if_neg he]

theorem scanFile_incl (C : Config) (path : String) (st : ScanState) (f : String) :
    (scanFile C path st f).included_by =
      (if eligibleXml C f = true then
        (match C.parse (absOf path f) with
         | none => st.included_by
         | some hrefs => addEdges path (absOf path f) hrefs st.included_by)
      else st.included_by) := by
  simp only [scanFile]
  by_cases hm : is_book_master (basename f) = true
  · rw [if_pos hm]
    by_cases he : eligibleXml C f = true
    · rw [if_pos he, if_pos he]
      cases hp : C.parse (absOf path f)
      · rfl
      · rfl
    · rw [if_neg he, if_neg he]
  · rw [if_neg hm]
    by_cases he : eligibleXml C f = true
    · rw [if_pos he, if_pos he]
      cases hp : C.parse (absOf path f)
      · rfl
      · rfl
    · rw [if_neg he, if_neg he]

theorem scanFile_log (C : Config) (path : String) (st : ScanState) (f : String) :
    (scanFile C path st f).log =
      (if eligibleXml C f = true then
        (match C.parse (absOf path f) with
         | none => st.log ++ [warnMsg (absOf path f)]
         | some _ => st.log)
      else st.log) := by
  simp only [scanFile]
  by_cases hm : is_book_master (basename f) = true
  · rw [if_pos hm]
    by_cases he : eligibleXml C f = true
    · rw [if_pos he, if_pos he]
      cases hp : C.parse (absOf path f)
      · rfl
      · rfl
    · rw [if_neg he, if_neg he]
  · rw [if_neg hm]
    by_cases he : eligibleXml C f = true
    · rw [if_pos he, if_pos he]
      cases hp : C.parse (absOf path f)
      · rfl
      · rfl
    · rw [if_neg he, if_neg he]

theorem scanFile_bookInv (C : Config) (path : String) (st : ScanState) (f : String)
    (h : BookInv C st) : BookInv C (scanFile C path st f) := by
  obtain ⟨h1, h2, h3⟩ := h
  refine ⟨?_, ?_, ?_⟩
  · rw [scanFile_books, scanFile_book_root]
    exact h1
  · intro pr hpr
    rw [scanFile_books]
    rw [scanFile_bk] at hpr
    by_cases hm : is_book_master (basename f) = true
    · rw [if_pos hm] at hpr
      rcases List.mem_cons.mp hpr with rfl | hm2
      · exact h1
      · exact h2 pr hm2
    · rw [if_neg hm] at hpr
      exact h2 pr hpr
  · intro bb hbb
    rw [scanFile_books]
    rw [scanFile_affected] at hbb
    exact h3 bb hbb

theorem scanFiles_bookInv (C : Config) (path : String) :
    ∀ (fs : List String) (st : ScanState),
    BookInv C st → BookInv C (scanFiles C path fs st) := by
  intro fs
  induction fs with
  | nil => intro st h; exact h
  | cons f rest ih =>
      intro st h
      simp only [scanFiles]
      exact ih _ (scanFile_bookInv C path st f h)

theorem processEntry_bookInv (C : Config) (st : ScanState) (e : String × List String)
    (h : BookInv C st) : BookInv C (processEntry C st e) := by
  obtain ⟨root, files⟩ := e
  obtain ⟨h1, h2, h3⟩ := h
  simp only [processEntry]
  by_cases hexc : basename root ∈ C.book_exceptions
  · rw [if_pos hexc]; exact ⟨h1, h2, h3⟩
  · rw [if_neg hexc]
    by_cases hdoc : (strEndsWith root "doc" || decide (root = C.rootdir)) = true
    · rw [if_pos hdoc]; exact ⟨h1, h2, h3⟩
    · rw [if_neg hdoc]
      have hmid : ∀ st2 : ScanState, BookInv C st2 →
          BookInv C (if buildAll C then st2 else
            scanFiles C root files
              (if (strEndsWith root "doc/high-availability-guide" &&
                  ha_guide_touched C.changed) = true then
                { st2 with affected_books :=
                    insertIfAbsent st2.book_root st2.affected_books }
              else st2)) := by
        intro st2 hinv2
        obtain ⟨g1, g2, g3⟩ := hinv2
        by_cases hba : buildAll C = true
        · rw [if_pos hba]; exact ⟨g1, g2, g3⟩
        · rw [if_neg hba]
          refine scanFiles_bookInv C root files _ ?_
          by_cases hhaif : (strEndsWith root "doc/high-availability-guide" &&
              ha_guide_touched C.changed) = true
          · rw [if_pos hhaif]
            refine ⟨g1, g2, ?_⟩
            intro bb hbb
            rcases mem_insertIfAbsent.mp hbb with hin | heq
            · exact g3 bb hin
            · rw [heq]; exact g1
          · rw [if_neg hhaif]; exact ⟨g1, g2, g3⟩
      by_cases hpom : "pom.xml" ∈ files
      · rw [if_pos hpom]
        by_cases hob : (!onlyBookActive C.only_book ||
            (C.only_book.getD []).contains (basename root)) = true
        · rw [if_pos hob]
          refine hmid _ ⟨?_, ?_, ?_⟩
          · exact Or.inl (List.mem_append_right _ (List.mem_singleton.mpr rfl))
          · intro pr hpr
            rcases h2 pr hpr with hin | heq
            · exact Or.inl (List.mem_append_left _ hin)
            · exact Or.inr heq
          · intro bb hbb
            rcases h3 bb hbb with hin | heq
            · exact Or.inl (List.mem_append_left _ hin)
            · exact Or.inr heq
        · rw [if_neg hob]
          exact hmid _ ⟨h1, h2, h3⟩
      · rw [if_neg hpom]
        exact hmid _ ⟨h1, h2, h3⟩

theorem scanEntries_bookInv (C : Config) :
    ∀ (es : List (String × List String)) (st : ScanState),
    BookInv C st → BookInv C (scanEntries C es st) := by
  intro es
  induction es with
  | nil => intro st h; exact h
  | cons e rest ih =>
      intro st h
      simp only [scanEntries]
      by_cases hstop : st.stopped = true
      · rw [if_pos hstop]; exact h
      · rw [if_neg hstop]
        exact ih _ (processEntry_bookInv C st e h)

theorem scanTree_bookInv (C : Config) (t : FSTree) : BookInv C (scanTree C t) := by
  unfold scanTree
  refine scanEntries_bookInv C _ _ ?_
  exact ⟨Or.inr rfl, fun pr hpr => absurd hpr (List.not_mem_nil pr),
    fun b hb => absurd hb (List.not_mem_nil b)⟩

theorem processFiles_books_from (bk : List (String × String))
    (incl : List (String × List String)) :
    ∀ (todo : List String) (st st' : CState),
    processFiles bk incl todo st = .ok st' →
    ∀ b ∈ st'.books, b ∈ st.books ∨ ∃ k, (k, b) ∈ bk := by
  intro todo
  induction todo with
  | nil =>
      intro st st' h b hb
      simp only [processFiles, Except.ok.injEq] at h
      subst h
      exact Or.inl hb
  | cons f rest ih =>
      intro st st' h b hb
      simp only [processFiles] at h
      by_cases hm : is_book_master (basename f) = true
      · rw [if_pos hm] at h
        cases hlk : bk.lookup f with
        | none => rw [hlk] at h; simp at h
        | some b0 =>
            rw [hlk] at h
            rcases ih _ _ h b hb with hin | hex
            · rcases mem_insertIfAbsent.mp hin with hin2 | heq
              · exact Or.inl hin2
              · subst heq
                exact Or.inr ⟨f, lookup_mem hlk⟩
            · exact Or.inr hex
      · rw [if_neg hm] at h
        cases hlk : incl.lookup f with
        | none => rw [hlk] at h; exact ih _ _ h b hb
        | some gs => rw [hlk] at h; exact ih _ _ h b hb

theorem closureLoop_books_from (bk : List (String × String))
    (incl : List (String × List String)) :
    ∀ (fuel : Nat) (st st' : CState),
    closureLoop bk incl fuel st = .ok st' →
    ∀ b ∈ st'.books, b ∈ st.books ∨ ∃ k, (k, b) ∈ bk := by
  intro fuel
  induction fuel with
  | zero =>
      intro st st' h b hb
      simp only [closureLoop, Except.ok.injEq] at h
      subst h
      exact Or.inl hb
  | succ n ih =>
      intro st st' h b hb
      simp only [closureLoop] at h
      by_cases he : st.new.isEmpty = true
      · rw [if_pos he] at h
        simp only [Except.ok.injEq] at h
        subst h
        exact Or.inl hb
      · rw [if_neg he] at h
        cases hpf : processFiles bk incl st.new { st with new := [] } with
        | error e => rw [hpf] at h; simp at h
        | ok st1 =>
            rw [hpf] at h
            rcases ih _ _ h b hb with hin | hex
            · exact processFiles_books_from bk incl st.new _ _ hpf b hin
            · exact Or.inr hex

theorem lookup_isSome_cons {bk : List (String × String)} {k v g : String}
    (h : (bk.lookup g).isSome = true) : (((k, v) :: bk).lookup g).isSome = true := by
  simp only [List.lookup]
  cases hbeq : g == k
  · exact h
  · rfl

theorem lookup_self_cons (bk : List (String × String)) (k v : String) :
    (((k, v) :: bk).lookup k).isSome = true := by
  simp [List.lookup]

theorem addEdge_from : ∀ (incl : List (String × List String)) (tg g : String),
    ∀ pr ∈ addEdge incl tg g, ∀ x ∈ pr.2, x = g ∨ ∃ pr0 ∈ incl, x ∈ pr0.2
  | [], tg, g => by
      intro pr hpr x hx
      simp only [addEdge] at hpr
      rcases List.mem_singleton.mp hpr with rfl
      exact Or.inl (List.mem_singleton.mp hx)
  | (t, gs) :: rest, tg, g => by
      intro pr hpr x hx
      simp only [addEdge] at hpr
      split at hpr
      · rcases List.mem_cons.mp hpr with rfl | hm
        · by_cases hgin : g ∈ gs
          · rw [if_pos hgin] at hx
            exact Or.inr ⟨(t, gs), List.mem_cons_self _ _, hx⟩
          · rw [if_neg hgin] at hx
            rcases List.mem_append.mp hx with hxl | hxr
            · exact Or.inr ⟨(t, gs), List.mem_cons_self _ _, hxl⟩
            · exact Or.inl (List.mem_singleton.mp hxr)
        · exact Or.inr ⟨pr, List.mem_cons_of_mem _ hm, hx⟩
      · rcases List.mem_cons.mp hpr with rfl | hm
        · exact Or.inr ⟨(t, gs), List.mem_cons_self _ _, hx⟩
        · rcases addEdge_from rest tg g pr hm x hx with h1 | ⟨pr0, hpr0, hx0⟩
          · exact Or.inl h1
          · exact Or.inr ⟨pr0, List.mem_cons_of_mem _ hpr0, hx0⟩

theorem addEdges_from (path f_abs : String) :
    ∀ (hrefs : List String) (incl : List (String × List String)),
    ∀ pr ∈ addEdges path f_abs hrefs incl, ∀ x ∈ pr.2,
      x = f_abs ∨ ∃ pr0 ∈ incl, x ∈ pr0.2 := by
  intro hrefs
  induction hrefs with
  | nil => intro incl pr hpr x hx; exact Or.inr ⟨pr, hpr, hx⟩
  | cons h0 rest ih =>
      intro incl pr hpr x hx
      simp only [addEdges] at hpr
      rcases ih _ pr hpr x hx with h1 | ⟨pr0, hpr0, hx0⟩
      · exact Or.inl h1
      · rcases addEdge_from incl (absOf path h0) f_abs pr0 hpr0 x hx0 with
          h2 | ⟨pr1, hpr1, hx1⟩
        · exact Or.inl h2
        · exact Or.inr ⟨pr1, hpr1, hx1⟩

theorem scanFile_scanSafe (C : Config) (path : String) (st : ScanState) (f : String)
    (hcf : basename (absOf path f) = basename f)
    (h : ScanSafe st) : ScanSafe (scanFile C path st f) := by
  intro pr hpr g hg hmg
  rw [scanFile_incl] at hpr
  rw [scanFile_bk]
  have hold : ∀ pr0 ∈ st.included_by, g ∈ pr0.2 →
      ((if is_book_master (basename f) then
        (absOf path f, st.book_root) :: st.book_bk
      else st.book_bk).lookup g).isSome = true := by
    intro pr0 hpr0 hg0
    have hbase := h pr0 hpr0 g hg0 hmg
    by_cases hm : is_book_master (basename f) = true
    · rw [if_pos hm]
      exact lookup_isSome_cons hbase
    · rw [if_neg hm]
      exact hbase
  by_cases he : eligibleXml C f = true
  · rw [if_pos he] at hpr
    cases hp : C.parse (absOf path f) with
    | none =>
        rw [hp] at hpr
        exact hold pr hpr hg
    | some hrefs =>
        rw [hp] at hpr
        rcases addEdges_from path (absOf path f) hrefs st.included_by pr hpr g hg with
          hgf | ⟨pr0, hpr0, hg0⟩
        · subst hgf
          rw [hcf] at hmg
          rw [if_pos hmg]
          exact lookup_self_cons _ _ _
        · exact hold pr0 hpr0 hg0
  · rw [if_neg he] at hpr
    exact hold pr hpr hg

theorem scanFiles_scanSafe (C : Config) (path : String) :
    ∀ (fs : List String) (st : ScanState),
    (∀ fn ∈ fs, basename (absOf path fn) = basename fn) →
    ScanSafe st → ScanSafe (scanFiles C path fs st) := by
  intro fs
  induction fs with
  | nil => intro st _ h; exact h
  | cons f rest ih =>
      intro st hclean h
      simp only [scanFiles]
      refine ih _ (fun fn hfn => hclean fn (List.mem_cons_of_mem _ hfn)) ?_
      exact scanFile_scanSafe C path st f (hclean f (List.mem_cons_self _ _)) h

theorem processEntry_scanSafe (C : Config) (st : ScanState) (e : String × List String)
    (hclean : ∀ fn ∈ e.2, basename (absOf e.1 fn) = basename fn)
    (h : ScanSafe st) : ScanSafe (processEntry C st e) := by
  obtain ⟨root, files⟩ := e
  simp only [processEntry]
  by_cases hexc : basename root ∈ C.book_exceptions
  · rw [if_pos hexc]; exact h
  · rw [if_neg hexc]
    by_cases hdoc : (strEndsWith root "doc" || decide (root = C.rootdir)) = true
    · rw [if_pos hdoc]; exact h
    · rw [if_neg hdoc]
      have hmid : ∀ st2 : ScanState, ScanSafe st2 →
          ScanSafe (if buildAll C then st2 else
            scanFiles C root files
              (if (strEndsWith root "doc/high-availability-guide" &&
                  ha_guide_touched C.changed) = true then
                { st2 with affected_books :=
                    insertIfAbsent st2.book_root st2.affected_books }
              else st2)) := by
        intro st2 hinv2
        by_cases hba : buildAll C = true
        · rw [if_pos hba]; exact hinv2
        · rw [if_neg hba]
          refine scanFiles_scanSafe C root files _ hclean ?_
          by_cases hhaif : (strEndsWith root "doc/high-availability-guide" &&
              ha_guide_touched C.changed) = true
          · rw [if_pos hhaif]; exact hinv2
          · rw [if_neg hhaif]; exact hinv2
      by_cases hpom : "pom.xml" ∈ files
      · rw [if_pos hpom]
        by_cases hob : (!onlyBookActive C.only_book ||
            (C.only_book.getD []).contains (basename root)) = true
        · rw [if_pos hob]
          exact hmid _ h
        · rw [if_neg hob]
          exact hmid _ h
      · rw [if_neg hpom]
        exact hmid _ h

theorem scanEntries_scanSafe (C : Config) :
    ∀ (es : List (String × List String)) (st : ScanState),
    (∀ e ∈ es, ∀ fn ∈ e.2, basename (absOf e.1 fn) = basename fn) →
    ScanSafe st → ScanSafe (scanEntries C es st) := by
  intro es
  induction es with
  | nil => intro st _ h; exact h
  | cons e rest ih =>
      intro st hclean h
      simp only [scanEntries]
      by_cases hstop : st.stopped = true
      · rw [if_pos hstop]; exact h
      · rw [if_neg hstop]
        refine ih _ (fun e2 he2 => hclean e2 (List.mem_cons_of_mem _ he2)) ?_
        exact processEntry_scanSafe C st e (hclean e (List.mem_cons_self _ _)) h

theorem cleanEntries_spec {es : List (String × List String)}
    (h : cleanEntries es = true) :
    ∀ e ∈ es, ∀ fn ∈ e.2, basename (absOf e.1 fn) = basename fn := by
  intro e he fn hfn
  unfold cleanEntries at h
  rw [List.all_eq_true] at h
  have h2 := h e he
  rw [List.all_eq_true] at h2
  exact of_decide_eq_true (h2 fn hfn)

theorem scanTree_scanSafe (C : Config) (t : FSTree)
    (hclean : cleanEntries (walkEntries C.ignore_dirs C.rootdir t) = true) :
    ScanSafe (scanTree C t) := by
  unfold scanTree
  refine scanEntries_scanSafe C _ _ (cleanEntries_spec hclean) ?_
  intro pr hpr
  exact absurd hpr (List.not_mem_nil pr)

theorem scanFile_inclInv (C : Config) (path : String) (st : ScanState) (f : String)
    (hdoc : strEndsWith path "doc" = false) (hroot : path ≠ C.rootdir)
    (h : IncluderInv C st) : IncluderInv C (scanFile C path st f) := by
  intro pr hpr g hg
  rw [scanFile_incl] at hpr
  by_cases he : eligibleXml C f = true
  · rw [if_pos he] at hpr
    cases hp : C.parse (absOf path f) with
    | none =>
        rw [hp] at hpr
        exact h pr hpr g hg
    | some hrefs =>
        rw [hp] at hpr
        rcases addEdges_from path (absOf path f) hrefs st.included_by pr hpr g hg with
          hgf | ⟨pr0, hpr0, hg0⟩
        · exact ⟨path, f, hgf, by rw [hdoc]; exact Bool.false_ne_true, hroot⟩
        · exact h pr0 hpr0 g hg0
  · rw [if_neg he] at hpr
    exact h pr hpr g hg

theorem processEntry_inclInv (C : Config) (st : ScanState) (e : String × List String)
    (h : IncluderInv C st) : IncluderInv C (processEntry C st e) := by
  obtain ⟨root, files⟩ := e
  simp only [processEntry]
  by_cases hexc : basename root ∈ C.book_exceptions
  · rw [if_pos hexc]; exact h
  · rw [if_neg hexc]
    by_cases hdoc : (strEndsWith root "doc" || decide (root = C.rootdir)) = true
    · rw [if_pos hdoc]; exact h
    · rw [if_neg hdoc]
      have hnd : strEndsWith root "doc" = false ∧ root ≠ C.rootdir := by
        rw [Bool.or_eq_true] at hdoc
        push_neg at hdoc
        obtain ⟨hd1, hd2⟩ := hdoc
        refine ⟨Bool.eq_false_iff.mpr hd1, ?_⟩
        intro heq
        rw [heq] at hd2
        simp at hd2
      have hmid : ∀ st2 : ScanState, IncluderInv C st2 →
          IncluderInv C (if buildAll C then st2 else
            scanFiles C root files
              (if (strEndsWith root "doc/high-availability-guide" &&
                  ha_guide_touched C.changed) = true then
                { st2 with affected_books :=
                    insertIfAbsent st2.book_root st2.affected_books }
              else st2)) := by
        intro st2 hinv2
        by_cases hba : buildAll C = true
        · rw [if_pos hba]; exact hinv2
        · rw [if_neg hba]
          have hfs : ∀ (fs : List String) (s : ScanState), IncluderInv C s →
              IncluderInv C (scanFiles C root fs s) := by
            intro fs
            induction fs with
            | nil => intro s hs; exact hs
            | cons f0 rest ih =>
                intro s hs
                simp only [scanFiles]
                exact ih _ (scanFile_inclInv C root s f0 hnd.1 hnd.2 hs)
          refine hfs files _ ?_
          by_cases hhaif : (strEndsWith root "doc/high-availability-guide" &&
              ha_guide_touched C.changed) = true
          · rw [if_pos hhaif]; exact hinv2
          · rw [if_neg hhaif]; exact hinv2
      by_cases hpom : "pom.xml" ∈ files
      · rw [if_pos hpom]
        by_cases hob : (!onlyBookActive C.only_book ||
            (C.only_book.getD []).contains (basename root)) = true
        · rw [if_pos hob]
          exact hmid _ h
        · rw [if_neg hob]
          exact hmid _ h
      · rw [if_neg hpom]
        exact hmid _ h

theorem scanTree_inclInv (C : Config) (t : FSTree) : IncluderInv C (scanTree C t) := by
  unfold scanTree
  have hse : ∀ (es : List (String × List String)) (st : ScanState),
      IncluderInv C st → IncluderInv C (scanEntries C es st) := by
    intro es
    induction es with
    | nil => intro st h; exact h
    | cons e rest ih =>
        intro st h
        simp only [scanEntries]
        by_cases hstop : st.stopped = true
        · rw [if_pos hstop]; exact h
        · rw [if_neg hstop]
          exact ih _ (processEntry_inclInv C st e h)
  refine hse _ _ ?_
  intro pr hpr
  exact absurd hpr (List.not_mem_nil pr)

/-! ### Parse-oracle independence -/

theorem buildAll_parse (C : Config) (p' : String → Option (List String)) :
    buildAll { C with parse := p' } = buildAll C := rfl

theorem processEntry_parse_indep (C : Config) (p' : String → Option (List String))
    (hb : buildAll C = true) (st : ScanState) (e : String × List String) :
    processEntry { C with parse := p' } st e = processEntry C st e := by
  obtain ⟨root, files⟩ := e
  simp only [processEntry, buildAll_parse, hb, eq_self_iff_true, if_true]

theorem scanEntries_parse_indep (C : Config) (p' : String → Option (List String))
    (hb : buildAll C = true) :
    ∀ (es : List (String × List String)) (st : ScanState),
    scanEntries { C with parse := p' } es st = scanEntries C es st := by
  intro es
  induction es with
  | nil => intro st; rfl
  | cons e rest ih =>
      intro st
      simp only [scanEntries]
      by_cases hstop : st.stopped = true
      · rw [if_pos hstop, if_pos hstop]
      · rw [if_neg hstop, if_neg hstop, processEntry_parse_indep C p' hb, ih]

theorem scanTree_parse_indep (C : Config) (p' : String → Option (List String))
    (hb : buildAll C = true) (t : FSTree) :
    scanTree { C with parse := p' } t = scanTree C t := by
  unfold scanTree
  rw [scanEntries_parse_indep C p' hb]
  exact rfl

theorem clearLog_fields {s t : ScanState} (h : clearLog s = clearLog t) :
    s.books = t.books ∧ s.book_root = t.book_root ∧ s.book_bk = t.book_bk ∧
    s.included_by = t.included_by ∧ s.affected_books = t.affected_books ∧
    s.visited = t.visited ∧ s.stopped = t.stopped := by
  refine ⟨?_, ?_, ?_, ?_, ?_, ?_, ?_⟩
  · have h2 := congrArg ScanState.books h
    exact h2
  · have h2 := congrArg ScanState.book_root h
    exact h2
  · have h2 := congrArg ScanState.book_bk h
    exact h2
  · have h2 := congrArg ScanState.included_by h
    exact h2
  · have h2 := congrArg ScanState.affected_books h
    exact h2
  · have h2 := congrArg ScanState.visited h
    exact h2
  · have h2 := congrArg ScanState.stopped h
    exact h2

theorem clearLog_eq_of {s t : ScanState} (h1 : s.books = t.books)
    (h2 : s.book_root = t.book_root) (h3 : s.book_bk = t.book_bk)
    (h4 : s.included_by = t.included_by) (h5 : s.affected_books = t.affected_books)
    (h6 : s.visited = t.visited) (h7 : s.stopped = t.stopped) :
    clearLog s = clearLog t := by
  unfold clearLog
  cases s
  cases t
  simp_all

theorem scanFile_visited (C : Config) (path : String) (st : ScanState) (f : String) :
    (scanFile C path st f).visited = st.visited := by
  obtain ⟨b, i, l, h⟩ := scanFile_shape C path st f
  rw [h]

theorem scanFile_stopped (C : Config) (path : String) (st : ScanState) (f : String) :
    (scanFile C path st f).stopped = st.stopped := by
  obtain ⟨b, i, l, h⟩ := scanFile_shape C path st f
  rw [h]

theorem eligibleXml_updParse (C : Config) (p' : String → Option (List String))
    (f : String) : eligibleXml { C with parse := p' } f = eligibleXml C f := rfl

theorem scanFile_clearLog (C : Config) (f0 : String) (h0 : C.parse f0 = none)
    (path f : String) (st st' : ScanState) (hcl : clearLog st = clearLog st') :
    clearLog (scanFile { C with parse := updOracle C.parse f0 (some []) } path st f) =
      clearLog (scanFile C path st' f) := by
  obtain ⟨e1, e2, e3, e4, e5, e6, e7⟩ := clearLog_fields hcl
  refine clearLog_eq_of ?_ ?_ ?_ ?_ ?_ ?_ ?_
  · rw [scanFile_books, scanFile_books, e1]
  · rw [scanFile_book_root, scanFile_book_root, e2]
  · rw [scanFile_bk, scanFile_bk, e2, e3]
  · rw [scanFile_incl, scanFile_incl, eligibleXml_updParse, e4]
    have hproj : ({ C with parse := updOracle C.parse f0 (some []) } : Config).parse =
        updOracle C.parse f0 (some []) := rfl
    rw [hproj]
    by_cases he : eligibleXml C f = true
    · rw [if_pos he, if_pos he]
      by_cases hx : absOf path f = f0
      · have hl : updOracle C.parse f0 (some []) (absOf path f) = some [] := by
          unfold updOracle
          rw [if_pos hx]
        have hr : C.parse (absOf path f) = none := by rw [hx]; exact h0
        rw [hl, hr]
        exact rfl
      · have hl : updOracle C.parse f0 (some []) (absOf path f) =
            C.parse (absOf path f) := by
          unfold updOracle
          rw [if_neg hx]
        rw [hl]
    · rw [if_neg he, if_neg he]
  · rw [scanFile_affected, scanFile_affected, e5]
  · rw [scanFile_visited, scanFile_visited, e6]
  · rw [scanFile_stopped, scanFile_stopped, e7]

theorem scanFiles_clearLog (C : Config) (f0 : String) (h0 : C.parse f0 = none)
    (path : String) :
    ∀ (fs : List String) (st st' : ScanState), clearLog st = clearLog st' →
    clearLog (scanFiles { C with parse := updOracle C.parse f0 (some []) } path fs st) =
      clearLog (scanFiles C path fs st') := by
  intro fs
  induction fs with
  | nil => intro st st' hcl; exact hcl
  | cons f rest ih =>
      intro st st' hcl
      simp only [scanFiles]
      exact ih _ _ (scanFile_clearLog C f0 h0 path f st st' hcl)

theorem tail_clearLog (C : Config) (f0 : String) (h0 : C.parse f0 = none)
    (root : String) (files : List String) (s2 s2' : ScanState)
    (hrel : clearLog s2 = clearLog s2') :
    clearLog (if buildAll C then s2
      else scanFiles { C with parse := updOracle C.parse f0 (some []) } root files
        (if (strEndsWith root "doc/high-availability-guide" &&
            ha_guide_touched C.changed) = true then
          { s2 with affected_books := insertIfAbsent s2.book_root s2.affected_books }
        else s2)) =
    clearLog (if buildAll C then s2'
      else scanFiles C root files
        (if (strEndsWith root "doc/high-availability-guide" &&
            ha_guide_touched C.changed) = true then
          { s2' with affected_books := insertIfAbsent s2'.book_root s2'.affected_books }
        else s2')) := by
  obtain ⟨f1, f2, f3, f4, f5, f6, f7⟩ := clearLog_fields hrel
  by_cases hba : buildAll C = true
  · rw [if_pos hba, if_pos hba]
    exact hrel
  · rw [if_neg hba, if_neg hba]
    refine scanFiles_clearLog C f0 h0 root files _ _ ?_
    by_cases hhaif : (strEndsWith root "doc/high-availability-guide" &&
        ha_guide_touched C.changed) = true
    · rw [if_pos hhaif, if_pos hhaif]
      exact clearLog_eq_of f1 f2 f3 f4 (by rw [f2, f5]) f6 f7
    · rw [if_neg hhaif, if_neg hhaif]
      exact hrel

theorem processEntry_clearLog (C : Config) (f0 : String) (h0 : C.parse f0 = none)
    (st st' : ScanState) (e : String × List String)
    (hcl : clearLog st = clearLog st') :
    clearLog (processEntry { C with parse := updOracle C.parse f0 (some []) } st e) =
      clearLog (processEntry C st' e) := by
  obtain ⟨root, files⟩ := e
  obtain ⟨e1, e2, e3, e4, e5, e6, e7⟩ := clearLog_fields hcl
  simp only [processEntry, buildAll_parse]
  by_cases hexc : basename root ∈ C.book_exceptions
  · rw [if_pos hexc, if_pos hexc]
    exact clearLog_eq_of e1 e2 e3 e4 e5 (by rw [e6]) rfl
  · rw [if_neg hexc, if_neg hexc]
    by_cases hdoc : (strEndsWith root "doc" || decide (root = C.rootdir)) = true
    · rw [if_pos hdoc, if_pos hdoc]
      exact clearLog_eq_of e1 e2 e3 e4 e5 (by rw [e6]) e7
    · rw [if_neg hdoc, if_neg hdoc]
      refine tail_clearLog C f0 h0 root files _ _ ?_
      by_cases hpom : "pom.xml" ∈ files
      · rw [if_pos hpom, if_pos hpom]
        by_cases hob : (!onlyBookActive C.only_book ||
            (C.only_book.getD []).contains (basename root)) = true
        · rw [if_pos hob, if_pos hob]
          exact clearLog_eq_of (by rw [e1]) rfl e3 e4 e5 (by rw [e6]) e7
        · rw [if_neg hob, if_neg hob]
          exact clearLog_eq_of e1 e2 e3 e4 e5 (by rw [e6]) e7
      · rw [if_neg hpom, if_neg hpom]
        exact clearLog_eq_of e1 e2 e3 e4 e5 (by rw [e6]) e7

theorem scanEntries_clearLog (C : Config) (f0 : String) (h0 : C.parse f0 = none) :
    ∀ (es : List (String × List String)) (st st' : ScanState),
    clearLog st = clearLog st' →
    clearLog (scanEntries { C with parse := updOracle C.parse f0 (some []) } es st) =
      clearLog (scanEntries C es st') := by
  intro es
  induction es with
  | nil => intro st st' hcl; exact hcl
  | cons e rest ih =>
      intro st st' hcl
      obtain ⟨_, _, _, _, _, _, e7⟩ := clearLog_fields hcl
      simp only [scanEntries]
      by_cases hstop : st.stopped = true
      · rw [if_pos hstop, if_pos (by rw [← e7]; exact hstop)]
        exact hcl
      · rw [if_neg hstop, if_neg (by rw [← e7]; exact hstop)]
        exact ih _ _ (processEntry_clearLog C f0 h0 st st' e hcl)

theorem scanTree_clearLog (C : Config) (f0 : String) (h0 : C.parse f0 = none)
    (t : FSTree) :
    clearLog (scanTree { C with parse := updOracle C.parse f0 (some []) } t) =
      clearLog (scanTree C t) := by
  unfold scanTree
  exact scanEntries_clearLog C f0 h0 _ _ _ rfl

/-! ### Chains reach the affected set -/

theorem chain_in_aff (bk : List (String × String)) (incl : List (String × List String))
    (cst : CState) (hdone : ∀ x ∈ cst.aff, DoneIn bk incl x cst) :
    ∀ (c : List String) (x m : String), isIncChain incl c = true →
    c.head? = some x → c.getLast? = some m →
    (∀ y ∈ c.dropLast, is_book_master (basename y) = false) →
    x ∈ cst.aff → m ∈ cst.aff := by
  intro c
  induction c with
  | nil => intro x m _ hh _ _ _; simp at hh
  | cons a rest ih =>
      intro x m hchain hh hl hmid hx
      simp only [List.head?_cons, Option.some.injEq] at hh
      subst hh
      cases rest with
      | nil =>
          simp only [List.getLast?_singleton, Option.some.injEq] at hl
          subst hl
          exact hx
      | cons b rest2 =>
          simp only [isIncChain, Bool.and_eq_true] at hchain
          obtain ⟨hedge, hrest⟩ := hchain
          have ham : is_book_master (basename a) = false := by
            apply hmid
            rw [List.dropLast_cons₂]
            exact List.mem_cons_self _ _
          have hbmem : b ∈ (incl.lookup a).getD [] := by
            simpa using hedge
          have hb : b ∈ cst.aff := (hdone a hx).2 ham b hbmem
          have hl2 : (b :: rest2).getLast? = some m := by
            rw [← hl, List.getLast?_cons_cons]
          refine ih b m hrest rfl hl2 ?_ hb
          intro y hy
          apply hmid
          rw [List.dropLast_cons₂]
          exact List.mem_cons_of_mem _ hy

/-! ### Claims -/


/-- C1 counterexample: the changed file `ch1.xml` reaches book A's
master `bk-a.xml` through a chain of inclusion edges, `bk-a.xml` is
recorded in the ownership map as belonging to book `/r/A`, no
build-everything trigger is active, yet `find_affected_books` returns
`["/r/B"]`, which does not contain `/r/A`: the chain is cut at the
intermediate master-named file `bk-mid.xml`, which is a closure terminal
and is not expanded further. -/
theorem C1_counterexample :
    buildAll c1Cfg = false ∧
    "B/ch1.xml" ∈ c1Cfg.changed ∧
    isIncChain (scanTree c1Cfg c1Tree).included_by
      ["/r/B/ch1.xml", "/r/B/bk-mid.xml", "/r/A/bk-a.xml"] = true ∧
    is_book_master (basename "/r/A/bk-a.xml") = true ∧
    (scanTree c1Cfg c1Tree).book_bk.lookup "/r/A/bk-a.xml" = some "/r/A" ∧
    find_affected_books c1Cfg c1Tree = .ok ["/r/B"] ∧
    "/r/A" ∉ ["/r/B"] :=
  ⟨rfl, by decide, rfl, rfl, rfl, rfl, by decide⟩

/-- C1 (amended): closure soundness holds for chains whose intermediate
nodes are not master-named.  If a changed file `f` starts a chain of
inclusion edges whose inner nodes are not master-named, ending at a file
`m` owned by book `B` in the ownership map, no build-everything trigger
is active, and `find_affected_books` returns a book set, then `B` is in
the returned set. -/
theorem C1_closure_soundness (C : Config) (t : FSTree) (f : String)
    (c : List String) (m B : String) (bs : List String)
    (hb : buildAll C = false)
    (hf : f ∈ C.changed)
    (hhead : c.head? = some (absOf C.rootdir f))
    (hchain : isIncChain (scanTree C t).included_by c = true)
    (hmid : ∀ y ∈ c.dropLast, is_book_master (basename y) = false)
    (hlast : c.getLast? = some m)
    (hmaster : is_book_master (basename m) = true)
    (hB : (scanTree C t).book_bk.lookup m = some B)
    (hok : find_affected_books C t = .ok bs) :
    B ∈ bs := by
  simp only [find_affected_books] at hok
  rw [if_neg (by rw [hb]; exact Bool.false_ne_true)] at hok
  cases hrun : runClosure (scanTree C t).book_bk (scanTree C t).included_by
      (changedAbs C) (scanTree C t).affected_books with
  | error e => rw [hrun] at hok; simp at hok
  | ok cst =>
      rw [hrun] at hok
      replace hok : Except.ok (if cst.books.isEmpty = true then (scanTree C t).books
        else cst.books) = Except.ok bs := hok
      have hnil : cst.new = [] := runClosure_new_nil hrun
      unfold runClosure at hrun
      have hdone := closureLoop_final _ _ _ _ _ (fun x hx => Or.inl hx) hrun hnil
      have hhx : absOf C.rootdir f ∈ changedAbs C := List.mem_map_of_mem _ hf
      have hmono := closureLoop_mono _ _ _ _ _ hrun
      have hxa : absOf C.rootdir f ∈ cst.aff := hmono.1 hhx
      have hmaff : m ∈ cst.aff :=
        chain_in_aff _ _ cst hdone c _ m hchain hhead hlast hmid hxa
      obtain ⟨b0, hb0, hbin⟩ := (hdone m hmaff).1 hmaster
      rw [hB] at hb0
      simp only [Option.some.injEq] at hb0
      subst hb0
      by_cases hie : cst.books.isEmpty = true
      · rw [List.isEmpty_iff] at hie
        rw [hie] at hbin
        exact absurd hbin (List.not_mem_nil B)
      · rw [if_neg hie] at hok
        simp only [Except.ok.injEq] at hok
        subst hok
        exact hbin

/-- Witness for C1 at a concrete input: in the two-book example tree,
the changed `ch1.xml` reaches book A's master by one edge, and `/r/A`
is indeed in the returned set. -/
theorem C1_closure_soundness_witness :
    isIncChain (scanTree demoCfg demoTree).included_by
      ["/r/A/ch1.xml", "/r/A/bk-a.xml"] = true ∧ "/r/A" ∈ ["/r/A"] :=
  ⟨rfl, C1_closure_soundness demoCfg demoTree "A/ch1.xml"
    ["/r/A/ch1.xml", "/r/A/bk-a.xml"] "/r/A/bk-a.xml" "/r/A" ["/r/A"]
    rfl (by decide) rfl rfl (by decide) rfl rfl rfl rfl⟩

/-- C2: when the force flag is set or a special file (`tools/test.py`
or `doc/pom.xml`) is among the changed files, `find_affected_books`
returns the full discovered book set and never consults the inclusion
graph: the result equals the book set discovered under an arbitrary
replacement parse oracle `p'`. -/
theorem C2_build_all_trigger (C : Config) (t : FSTree)
    (p' : String → Option (List String))
    (h : C.force = true ∨ check_modified_affects_all C.changed = true) :
    find_affected_books C t = .ok ((scanTree { C with parse := p' } t).books) := by
  have hb : buildAll C = true := by
    unfold buildAll
    rcases h with h | h
    · rw [h]; rfl
    · rw [h]; simp
  simp only [find_affected_books]
  rw [if_pos hb, scanTree_parse_indep C p' hb]

/-- Witness for C2: changing only `tools/test.py` trips the special-file
trigger and the full book set `["/r/A", "/r/B"]` is returned. -/
theorem C2_build_all_trigger_witness :
    check_modified_affects_all ["tools/test.py"] = true ∧
    find_affected_books { demoCfg with changed := ["tools/test.py"] } demoTree =
      .ok ((scanTree { { demoCfg with changed := ["tools/test.py"] } with
        parse := fun _ => none } demoTree).books) ∧
    (scanTree { { demoCfg with changed := ["tools/test.py"] } with
        parse := fun _ => none } demoTree).books = ["/r/A", "/r/B"] :=
  ⟨rfl, C2_build_all_trigger { demoCfg with changed := ["tools/test.py"] } demoTree
    (fun _ => none) (Or.inr rfl), rfl⟩


/-- C3: when no build-everything trigger is active and the closure
computation finishes with an empty affected-book set,
`find_affected_books` falls back to returning the full discovered book
set rather than the empty set. -/
theorem C3_empty_fallback (C : Config) (t : FSTree) (cst : CState)
    (hb : buildAll C = false)
    (hrun : runClosure (scanTree C t).book_bk (scanTree C t).included_by
      (changedAbs C) (scanTree C t).affected_books = .ok cst)
    (hempty : cst.books = []) :
    find_affected_books C t = .ok ((scanTree C t).books) := by
  simp only [find_affected_books]
  rw [if_neg (by rw [hb]; exact Bool.false_ne_true), hrun]
  show Except.ok (if cst.books.isEmpty = true then (scanTree C t).books
    else cst.books) = Except.ok ((scanTree C t).books)
  rw [hempty]
  simp

/-- Witness for C3: the orphan chapter affects no book, and the result
falls back to all books, here `["/r/A"]`. -/
theorem C3_empty_fallback_witness :
    runClosure (scanTree c3Cfg c3Tree).book_bk (scanTree c3Cfg c3Tree).included_by
      (changedAbs c3Cfg) (scanTree c3Cfg c3Tree).affected_books =
      .ok { new := [], aff := ["/r/A/orphan.xml"], books := [],
            trace := ["/r/A/orphan.xml"] } ∧
    find_affected_books c3Cfg c3Tree = .ok ((scanTree c3Cfg c3Tree).books) ∧
    (scanTree c3Cfg c3Tree).books = ["/r/A"] :=
  ⟨rfl, C3_empty_fallback c3Cfg c3Tree
    { new := [], aff := ["/r/A/orphan.xml"], books := [],
      trace := ["/r/A/orphan.xml"] } rfl rfl rfl, rfl⟩


/-- C4 counterexample: with no trigger active, the closure dequeues the
changed master-named file `/r/doc/bk-a.xml`, which has no entry in the
ownership map (its directory path ends in `doc`, so it was never
scanned), and the lookup `book_bk[f]` fails: the computation aborts with
the missing-key error instead of completing. -/
theorem C4_counterexample :
    buildAll c4Cfg = false ∧
    find_affected_books c4Cfg c4Tree = .error "/r/doc/bk-a.xml" :=
  ⟨rfl, rfl⟩

/-- C4 (amended): the closure loop raises a missing-key error exactly
when it dequeues a master-named file absent from `book_bk`; includers
found during the scan are always covered, so the computation cannot fail
whenever every master-named *changed* file has an ownership entry (with
well-formed file names in the walk). -/
theorem C4_closure_key_safety (C : Config) (t : FSTree)
    (hclean : cleanEntries (walkEntries C.ignore_dirs C.rootdir t) = true)
    (hchanged : ∀ p ∈ changedAbs C, is_book_master (basename p) = true →
      ((scanTree C t).book_bk.lookup p).isSome = true) :
    ∃ bs, find_affected_books C t = .ok bs := by
  by_cases hb : buildAll C = true
  · refine ⟨(scanTree C t).books, ?_⟩
    simp only [find_affected_books]
    rw [if_pos hb]
  · have hsafe : InclSafe (scanTree C t).book_bk (scanTree C t).included_by :=
      scanTree_scanSafe C t hclean
    obtain ⟨cst, hcst⟩ := closureLoop_safe (scanTree C t).book_bk
      (scanTree C t).included_by hsafe (fuelFor (scanTree C t).included_by)
      { new := changedAbs C, aff := changedAbs C,
        books := (scanTree C t).affected_books, trace := [] } hchanged
    refine ⟨if cst.books.isEmpty = true then (scanTree C t).books else cst.books, ?_⟩
    simp only [find_affected_books]
    rw [if_neg hb]
    have hrun : runClosure (scanTree C t).book_bk (scanTree C t).included_by
        (changedAbs C) (scanTree C t).affected_books = .ok cst := hcst
    rw [hrun]

/-- Witness for C4 at a concrete input: in the two-book example the
changed file is not master-named, so the key-safety hypothesis holds
vacuously and the resolution succeeds. -/
theorem C4_closure_key_safety_witness :
    cleanEntries (walkEntries demoCfg.ignore_dirs demoCfg.rootdir demoTree) = true ∧
    ∃ bs, find_affected_books demoCfg demoTree = .ok bs :=
  ⟨rfl, C4_closure_key_safety demoCfg demoTree rfl (by decide)⟩


/-- C5 counterexample: `/r/bookB` is a directory of the tree that is
not hidden, not ignored, not in the excluded-book set and not a
descendant of an excluded-book directory, yet the scanner never visits
it: reaching the excluded directory `/r/ebook` aborts the entire
remaining traversal (the loop `break`s), not just that subtree. -/
theorem C5_counterexample :
    "/r/bookB" ∈ (walkEntries c5Cfg.ignore_dirs c5Cfg.rootdir c5Tree).map Prod.fst ∧
    basename "/r/bookB" ∉ c5Cfg.book_exceptions ∧
    (scanTree c5Cfg c5Tree).visited = ["/r", "/r/ebook"] ∧
    "/r/bookB" ∉ (scanTree c5Cfg c5Tree).visited :=
  ⟨by decide, by decide, rfl, by decide⟩

/-- C5 (amended): the directories the loop body runs for are exactly
the pruned pre-order of the walk — hidden directories, ignore-set
directories and the first `target` subdirectory of each directory are
pruned — cut off just after the first directory whose base name is in
the excluded-book set, because that directory aborts the entire
traversal. -/
theorem C5_walk_coverage (C : Config) (t : FSTree) :
    (scanTree C t).visited =
      takeUpTo (fun r => decide (basename r ∈ C.book_exceptions))
        ((walkEntries C.ignore_dirs C.rootdir t).map Prod.fst) := by
  unfold scanTree
  rw [scanEntries_visited C (walkEntries C.ignore_dirs C.rootdir t) (initScan C) rfl]
  rfl


/-- C6 counterexample: inclusion scanning is not skipped for the
high-availability-guide book: its file `foo.xml` is parsed and
contributes the edge `img.png ↦ foo.xml` to the inclusion graph. -/
theorem C6_counterexample :
    (scanTree c6Cfg c6Tree).included_by.lookup
      "/r/doc/high-availability-guide/img.png" =
      some ["/r/doc/high-availability-guide/foo.xml"] ∧
    (scanTree c6Cfg c6Tree).affected_books = ["/r/doc/high-availability-guide"] :=
  ⟨rfl, rfl⟩

/-- Witness for C6 at a concrete input: visiting the ha-guide directory
of the example adds it to the affected books (a changed file lies under
it) and still scans its files. -/
theorem C6_ha_special_case_witness :
    strEndsWith "/r/doc/high-availability-guide" "doc/high-availability-guide" = true ∧
    ((processEntry c6Cfg (initScan c6Cfg)
        ("/r/doc/high-availability-guide", ["pom.xml", "foo.xml"])).affected_books =
      (if ha_guide_touched c6Cfg.changed then
        insertIfAbsent (if "pom.xml" ∈ ["pom.xml", "foo.xml"] then
            "/r/doc/high-availability-guide" else (initScan c6Cfg).book_root)
          (initScan c6Cfg).affected_books
      else (initScan c6Cfg).affected_books) ∧
    ∃ st3 : ScanState, processEntry c6Cfg (initScan c6Cfg)
        ("/r/doc/high-availability-guide", ["pom.xml", "foo.xml"]) =
        scanFiles c6Cfg "/r/doc/high-availability-guide" ["pom.xml", "foo.xml"] st3 ∧
      st3.included_by = (initScan c6Cfg).included_by) :=
  ⟨rfl, C6_ha_special_case c6Cfg (initScan c6Cfg) "/r/doc/high-availability-guide"
    ["pom.xml", "foo.xml"] rfl (by decide) rfl (by decide) rfl⟩


/-- C7 counterexample: the returned affected set is `["/r"]` — the root
directory itself — while the discovered book set is empty, so the
affected set is not a subset of the book set. -/
theorem C7_counterexample :
    find_affected_books c7Cfg c7Tree = .ok ["/r"] ∧
    (scanTree c7Cfg c7Tree).books = [] ∧
    "/r" = c7Cfg.rootdir :=
  ⟨rfl, rfl, rfl⟩

/-- C7 (amended): every book returned by `find_affected_books` is a
discovered book or the root directory itself; the root can leak in when
a master file or the ha-guide special case is encountered while
`book_root` still holds its initial value. -/
theorem C7_affected_subset (C : Config) (t : FSTree) (bs : List String)
    (hok : find_affected_books C t = .ok bs) :
    ∀ b ∈ bs, b ∈ (scanTree C t).books ∨ b = C.rootdir := by
  obtain ⟨h1, h2, h3⟩ := scanTree_bookInv C t
  simp only [find_affected_books] at hok
  by_cases hb : buildAll C = true
  · rw [if_pos hb] at hok
    simp only [Except.ok.injEq] at hok
    subst hok
    exact fun b hbm => Or.inl hbm
  · rw [if_neg hb] at hok
    cases hrun : runClosure (scanTree C t).book_bk (scanTree C t).included_by
        (changedAbs C) (scanTree C t).affected_books with
    | error e => rw [hrun] at hok; simp at hok
    | ok cst =>
        rw [hrun] at hok
        replace hok : Except.ok (if cst.books.isEmpty = true then (scanTree C t).books
          else cst.books) = Except.ok bs := hok
        simp only [Except.ok.injEq] at hok
        subst hok
        by_cases hie : cst.books.isEmpty = true
        · rw [if_pos hie]
          exact fun b hbm => Or.inl hbm
        · rw [if_neg hie]
          intro b hbm
          unfold runClosure at hrun
          rcases closureLoop_books_from _ _ _ _ _ hrun b hbm with hin | ⟨k, hk⟩
          · exact h3 b hin
          · exact h2 (k, b) hk

/-- Witness for C7 at a concrete input: the two-book example returns
`["/r/A"]`, and `/r/A` is a discovered book. -/
theorem C7_affected_subset_witness :
    find_affected_books demoCfg demoTree = .ok ["/r/A"] ∧
    ∀ b ∈ ["/r/A"], b ∈ (scanTree demoCfg demoTree).books ∨ b = demoCfg.rootdir :=
  ⟨rfl, C7_affected_subset demoCfg demoTree ["/r/A"] rfl⟩


/-- C8: on every finite inclusion graph, cyclic ones included, the
closure loop terminates — any fuel of at least `fuelFor incl` rounds
computes `runClosure`, so the result is fuel-independent — and, when the
initial changed-file list is duplicate-free, every successful run
dequeues each file at most once (the dequeue trace is duplicate-free,
enforced by the membership check against the affected files before a
file is enqueued) and ends with an empty frontier. -/
theorem C8_closure_termination (bk : List (String × String))
    (incl : List (String × List String)) (changed0 books0 : List String)
    (hnd : changed0.Nodup) :
    (∀ fuel : Nat, fuelFor incl ≤ fuel →
      closureLoop bk incl fuel
        { new := changed0, aff := changed0, books := books0, trace := [] } =
      runClosure bk incl changed0 books0) ∧
    (∀ cst : CState, runClosure bk incl changed0 books0 = .ok cst →
      cst.new = [] ∧ cst.trace.Nodup) := by
  constructor
  · intro fuel hf
    have hm := measure_lt_fuelFor incl
      ({ new := changed0, aff := changed0, books := books0, trace := [] } : CState)
    unfold runClosure
    exact closureLoop_stable bk incl (fuelFor incl - 1)
      { new := changed0, aff := changed0, books := books0, trace := [] }
      fuel (fuelFor incl) (by omega) (by omega) (by omega)
  · intro cst hok
    refine ⟨runClosure_new_nil hok, ?_⟩
    unfold runClosure at hok
    have hinv : RoundInv
        { new := changed0, aff := changed0, books := books0, trace := [] } := by
      refine ⟨hnd, List.nodup_nil, fun x hx => hx, ?_, ?_⟩
      · intro x hx
        simp at hx
      · intro x _ hx
        simp at hx
    exact (closureLoop_inv bk incl (fuelFor incl) _ cst hinv hok).2.1

/-- Witness for C8 at a concrete input: on the cyclic example graph,
fuel 50 already computes `runClosure`, and every successful run has an
empty final frontier and a duplicate-free trace. -/
theorem C8_closure_termination_witness :
    (["/r/A/ch0.xml"] : List String).Nodup ∧
    (closureLoop c8bk c8incl 50
        { new := ["/r/A/ch0.xml"], aff := ["/r/A/ch0.xml"], books := [],
          trace := [] } =
      runClosure c8bk c8incl ["/r/A/ch0.xml"] []) ∧
    (∀ cst : CState, runClosure c8bk c8incl ["/r/A/ch0.xml"] [] = .ok cst →
      cst.new = [] ∧ cst.trace.Nodup) :=
  ⟨by decide,
   (C8_closure_termination c8bk c8incl ["/r/A/ch0.xml"] [] (by decide)).1 50
     (by decide),
   (C8_closure_termination c8bk c8incl ["/r/A/ch0.xml"] [] (by decide)).2⟩


/-- C9: a parse failure is non-fatal and edge-free: replacing the failing
answer of the parse oracle at one file by an empty (successful) answer
changes none of the inclusion graph, the book-ownership map, the book
list or the affected books of the whole tree scan — so the failing file
contributes zero edges and the rest of the scan proceeds exactly as
without it — and scanning the failing file itself appends a diagnostic
naming the file to the log while leaving the inclusion graph untouched. -/
theorem C9_parse_failure_isolated (C : Config) (t : FSTree) (f0 : String)
    (h0 : C.parse f0 = none) :
    (scanTree { C with parse := updOracle C.parse f0 (some []) } t).included_by =
      (scanTree C t).included_by ∧
    (scanTree { C with parse := updOracle C.parse f0 (some []) } t).book_bk =
      (scanTree C t).book_bk ∧
    (scanTree { C with parse := updOracle C.parse f0 (some []) } t).books =
      (scanTree C t).books ∧
    (scanTree { C with parse := updOracle C.parse f0 (some []) } t).affected_books =
      (scanTree C t).affected_books ∧
    (∀ (st : ScanState) (path f : String), eligibleXml C f = true →
      absOf path f = f0 →
      (scanFile C path st f).log = st.log ++ [warnMsg f0] ∧
      (scanFile C path st f).included_by = st.included_by) := by
  obtain ⟨e1, e2, e3, e4, e5, e6, e7⟩ := clearLog_fields (scanTree_clearLog C f0 h0 t)
  refine ⟨e4, e3, e1, e5, ?_⟩
  intro st path f he hx
  constructor
  · rw [scanFile_log, if_pos he, hx, h0]
  · rw [scanFile_incl, if_pos he, hx, h0]

/-- Witness for C9 at a concrete input: with the oracle failing on
`/r/A/bad.xml`, repairing that one answer changes no recorded data, and
scanning the bad file only logs the warning. -/
theorem C9_parse_failure_isolated_witness :
    c9Cfg.parse "/r/A/bad.xml" = none ∧
    ((scanTree { c9Cfg with parse := updOracle c9Cfg.parse "/r/A/bad.xml" (some []) }
        c9Tree).included_by = (scanTree c9Cfg c9Tree).included_by ∧
     (scanTree { c9Cfg with parse := updOracle c9Cfg.parse "/r/A/bad.xml" (some []) }
        c9Tree).book_bk = (scanTree c9Cfg c9Tree).book_bk ∧
     (scanTree { c9Cfg with parse := updOracle c9Cfg.parse "/r/A/bad.xml" (some []) }
        c9Tree).books = (scanTree c9Cfg c9Tree).books ∧
     (scanTree { c9Cfg with parse := updOracle c9Cfg.parse "/r/A/bad.xml" (some []) }
        c9Tree).affected_books = (scanTree c9Cfg c9Tree).affected_books ∧
     (∀ (st : ScanState) (path f : String), eligibleXml c9Cfg f = true →
       absOf path f = "/r/A/bad.xml" →
       (scanFile c9Cfg path st f).log = st.log ++ [warnMsg "/r/A/bad.xml"] ∧
       (scanFile c9Cfg path st f).included_by = st.included_by)) :=
  ⟨rfl, C9_parse_failure_isolated c9Cfg c9Tree "/r/A/bad.xml" rfl⟩


/-- C10 counterexample: the claim says the scanner still descends into
the subdirectories of a directory whose path ends in `doc`; but the
excluded-directory check runs first and aborts the whole walk, so with
`doc` among the excluded names the subdirectory `/r/doc/A` — present in
the walk — is never visited and its book is never recorded. -/
theorem C10_counterexample :
    strEndsWith "/r/doc" "doc" = true ∧
    (scanTree c10Cfg c10Tree).visited = ["/r", "/r/doc"] ∧
    "/r/doc/A" ∈ (walkEntries c10Cfg.ignore_dirs c10Cfg.rootdir c10Tree).map
      Prod.fst ∧
    "/r/doc/A" ∉ (scanTree c10Cfg c10Tree).visited ∧
    (scanTree c10Cfg c10Tree).books = [] :=
  ⟨rfl, rfl, by decide, by decide, rfl⟩

/-- C10 (amended): for a visited directory whose path ends in `doc` or
which is the root directory — provided its base name is not among the
excluded directory names, whose check runs first and aborts the walk —
the scanner only records the visit: no book, no master-file ownership,
no inclusion edge and no diagnostic comes from its directly contained
files; consequently every includer recorded anywhere in the graph stems
from a directory that is neither `doc`-suffixed nor the root. -/
theorem C10_doc_blind_spot (C : Config) (t : FSTree) :
    (∀ (st : ScanState) (root : String) (files : List String),
      basename root ∉ C.book_exceptions →
      (strEndsWith root "doc" = true ∨ root = C.rootdir) →
      processEntry C st (root, files) = { st with visited := st.visited ++ [root] }) ∧
    (∀ pr ∈ (scanTree C t).included_by, ∀ g ∈ pr.2, ∃ p fn, g = absOf p fn ∧
      ¬strEndsWith p "doc" = true ∧ p ≠ C.rootdir) :=
  ⟨fun st root files h1 h2 => processEntry_doc_skip C st root files h1 h2,
   scanTree_inclInv C t⟩

/-- Witness for C10 at a concrete input: processing the non-excluded
directory `/r/subdoc` with a master file inside it only records the
visit. -/
theorem C10_doc_blind_spot_witness :
    basename "/r/subdoc" ∉ c10Cfg.book_exceptions ∧
    strEndsWith "/r/subdoc" "doc" = true ∧
    processEntry c10Cfg (initScan c10Cfg) ("/r/subdoc", ["bk-x.xml"]) =
      { initScan c10Cfg with
          visited := (initScan c10Cfg).visited ++ ["/r/subdoc"] } :=
  ⟨by decide, rfl,
   (C10_doc_blind_spot c10Cfg c10Tree).1 (initScan c10Cfg) "/r/subdoc" ["bk-x.xml"]
     (by decide) (Or.inl rfl)⟩

end DocTest
